import Mathlib

/-!
# Slurm exporter: the parse-and-aggregate pipelines

A shallow embedding of `partitions.go`, `qos.go` and `sshare.go`.

* A Go string is a list of characters (`Str`).  Every separator the program
  uses is ASCII, so splitting on characters and splitting on bytes agree.
* A Go `map[K]*V` is an association list in insertion order whose keys are
  pairwise distinct; `Map.get?` is the lookup `m[k]` and `Map.set` the store.
* The parsers run in `Option`: `none` is a run-time panic (a slice index out
  of range, a nil record dereferenced), `some m` is the returned mapping.
* The external commands are replaced by their captured output, passed in as
  arguments.
* `strconv.ParseFloat` is an argument `pf` of every parser, a function from a
  string to a value and an error flag; `ParseFloat` below is a model of the
  library function on unsigned/signed decimal literals.
* `Float64` keeps finite values as exact rationals: rounding to 53 bits is not
  modelled, infinities and NaN are.  A counter that starts at 0 and grows by 1
  is exact in float64 up to 2^53, more lines than a text can hold.
-/

namespace SlurmExporter

/-! ## Strings -/

/-- A Go string. -/
abbrev Str := List Char

/-- First piece and remaining pieces of a string cut at every `sep`. -/
def splitAux (sep : Char) : Str → Str × List Str
  | [] => ([], [])
  | c :: cs =>
    if c = sep then ([], (splitAux sep cs).1 :: (splitAux sep cs).2)
    else (c :: (splitAux sep cs).1, (splitAux sep cs).2)

/-- Go `strings.Split(s, sep)` for a one-character separator: the pieces
between the occurrences of `sep`, always at least one. -/
def Split (s : Str) (sep : Char) : List Str :=
  (splitAux sep s).1 :: (splitAux sep s).2

/-- Go `strings.Contains(s, sep)` for a one-character `sep`. -/
def Contains (s : Str) (sep : Char) : Bool := decide (sep ∈ s)

/-- Go `strings.HasPrefix(s, p)`. -/
def HasPrefix : Str → Str → Bool
  | _, [] => true
  | [], _ :: _ => false
  | c :: cs, d :: ds => decide (c = d) && HasPrefix cs ds

/-- Go `strings.Trim(s, cutset)` for a one-character cutset: every leading
and trailing `c` removed. -/
def Trim (s : Str) (c : Char) : Str :=
  ((s.dropWhile (fun x => decide (x = c))).reverse.dropWhile (fun x => decide (x = c))).reverse

/-- The text whose lines are `ls`: the lines joined by a newline. -/
def joinLines : List Str → Str
  | [] => []
  | [l] => l
  | l :: l' :: ls => l ++ '\n' :: joinLines (l' :: ls)

/-! ## float64 -/

/-- A float64 value: a finite number, an infinity with its sign, or NaN. -/
inductive Float64 where
  | fin (q : ℚ)
  | inf (neg : Bool)
  | nan
  deriving DecidableEq

namespace Float64

/-- Go `x + y` on float64.  The sum of two finite values is kept exact: it is
neither rounded nor turned into an infinity when it leaves the float64 range. -/
def add : Float64 → Float64 → Float64
  | fin a, fin b => fin (a + b)
  | fin _, inf s => inf s
  | inf s, fin _ => inf s
  | inf s, inf t => if s = t then inf s else nan
  | nan, _ => nan
  | _, nan => nan

/-- Go `x < y` on float64: false as soon as one side is NaN. -/
def lt : Float64 → Float64 → Bool
  | fin a, fin b => decide (a < b)
  | fin _, inf s => !s
  | inf s, fin _ => s
  | inf s, inf t => s && !t
  | nan, _ => false
  | _, nan => false

/-- Go `x == y` on float64: false as soon as one side is NaN. -/
def eq : Float64 → Float64 → Bool
  | fin a, fin b => decide (a = b)
  | inf s, inf t => decide (s = t)
  | _, _ => false

end Float64

/-! ## Maps -/

/-- A Go map with keys `K` and records `V`. -/
abbrev Map (K V : Type) := List (K × V)

namespace Map

variable {K V : Type} [DecidableEq K]

/-- The lookup `m[k]`. -/
def get? : Map K V → K → Option V
  | [], _ => none
  | (k', v) :: m, k => if k' = k then some v else get? m k

/-- The test `_, ok := m[k]`. -/
def contains (m : Map K V) (k : K) : Bool := (get? m k).isSome

/-- The store `m[k] = v`: the record at `k` is replaced, or a new entry is added. -/
def set : Map K V → K → V → Map K V
  | [], k, v => [(k, v)]
  | (k', v') :: m, k, v => if k' = k then (k', v) :: m else (k', v') :: set m k v

/-- The keys of the map. -/
def keys (m : Map K V) : List K := m.map Prod.fst

/-- The update `m[k].f = ...` through the stored pointer: `none` when `m[k]`
is nil, the panic of a nil dereference. -/
def modify? (m : Map K V) (k : K) (f : V → V) : Option (Map K V) :=
  match get? m k with
  | none => none
  | some v => some (set m k (f v))

end Map

/-! ## strconv.ParseFloat -/

/-- The type of `strconv.ParseFloat(s, 64)`: the value and whether an error
is reported. -/
abbrev ParseFloatFn := Str → Float64 × Bool

/-- Whether `c` is a decimal digit. -/
def isDigit (c : Char) : Bool := decide ('0'.toNat ≤ c.toNat) && decide (c.toNat ≤ '9'.toNat)

/-- The value of the decimal digit `c`. -/
def digitVal (c : Char) : Nat := c.toNat - '0'.toNat

/-- The special values of `strconv`: an optionally signed `inf` or
`infinity`, or an unsigned `nan`, in any letter case. -/
def special (s : Str) : Option Float64 :=
  let t := s.map Char.toLower
  if t = "nan".toList then some Float64.nan
  else if t = "inf".toList ∨ t = "+inf".toList ∨ t = "infinity".toList
      ∨ t = "+infinity".toList then some (Float64.inf false)
  else if t = "-inf".toList ∨ t = "-infinity".toList then some (Float64.inf true)
  else none

/-- The mantissa loop of `readFloat`: digits with at most one point.  Returns
the digits read as a number, how many of them follow the point, whether a
digit was seen, and the unread rest. -/
def readMantissa : Str → Bool → Nat → Nat → Bool → Nat × Nat × Bool × Str
  | [], _, mant, frac, saw => (mant, frac, saw, [])
  | c :: cs, sawdot, mant, frac, saw =>
    if c = '.' then
      if sawdot then (mant, frac, saw, c :: cs) else readMantissa cs true mant frac saw
    else if isDigit c then
      readMantissa cs sawdot (mant * 10 + digitVal c) (if sawdot then frac + 1 else frac) true
    else (mant, frac, saw, c :: cs)

/-- The exponent digits of `readFloat`; the exponent stops growing at 10000. -/
def readExpDigits : Str → Nat → Nat × Str
  | [], e => (e, [])
  | c :: cs, e =>
    if isDigit c then readExpDigits cs (if e < 10000 then e * 10 + digitVal c else e)
    else (e, c :: cs)

/-- The optional exponent of `readFloat`: `none` is a syntax error, otherwise
the decimal exponent and the unread rest. -/
def readExponent : Str → Option (Int × Str)
  | [] => some (0, [])
  | c :: cs =>
    if c = 'e' ∨ c = 'E' then
      match cs with
      | [] => none
      | d :: ds =>
        let body := if d = '+' ∨ d = '-' then ds else d :: ds
        match body with
        | [] => none
        | b :: _ =>
          if isDigit b then
            let r := readExpDigits body 0
            some (if d = '-' then -(r.1 : Int) else (r.1 : Int), r.2)
          else none
    else some (0, c :: cs)

/-- Go `readFloat` on a decimal literal: sign, digits with an optional point,
optional exponent.  `none` is a syntax error; otherwise the sign and the
rational number denoted. -/
def readFloat (s : Str) : Option (Bool × ℚ) :=
  let neg := s.head? = some '-'
  let body := if s.head? = some '+' ∨ s.head? = some '-' then s.tail else s
  match readMantissa body false 0 0 false with
  | (mant, frac, saw, rest) =>
    if saw then
      match readExponent rest with
      | some (e, []) => some (neg, (mant : ℚ) * (10 : ℚ) ^ (e - (frac : Int)))
      | _ => none
    else none

/-- A model of Go `strconv.ParseFloat(s, 64)` on decimal literals and the
special values.  A syntax error gives the value 0 with an error; a well-formed
literal at or beyond `2^1024 - 2^970` in magnitude gives the infinity of its
sign with a range error; one at or below `2^-1075` gives 0 without error.
Hexadecimal literals and digit-separating underscores, which the library
also reads, are syntax errors here. -/
def ParseFloat : ParseFloatFn := fun s =>
  match special s with
  | some v => (v, false)
  | none =>
    match readFloat s with
    | none => (Float64.fin 0, true)
    | some (neg, q) =>
      if (2 : ℚ) ^ 1024 - 2 ^ 970 ≤ q then (Float64.inf neg, true)
      else if q ≤ 1 / 2 ^ 1075 then (Float64.fin 0, false)
      else (Float64.fin (if neg then -q else q), false)

/-! ## partitions.go -/

/-- The record of one partition. -/
structure PartitionMetrics where
  cpus_allocated : Float64
  cpus_idle : Float64
  cpus_other : Float64
  jobs_running : Float64
  jobs_pending : Float64
  jobs_total : Float64
  cpus_total : Float64
  deriving DecidableEq

/-- The body of the first loop of `ParsePartitionsMetrics`, for one line of
the partition-state text. -/
def partitionsStateLine (pf : ParseFloatFn) (partitions : Map Str PartitionMetrics)
    (line : Str) : Option (Map Str PartitionMetrics) :=
  if Contains line ',' then do
    let split_line := Split line ','
    let partition ← split_line[0]?
    let partitions :=
      if Map.contains partitions partition then partitions
      else Map.set partitions partition
        ⟨Float64.fin 0, Float64.fin 0, Float64.fin 0, Float64.fin 0, Float64.fin 0,
          Float64.fin 0, Float64.fin 0⟩
    let states ← split_line[1]?
    let split_states := Split states '/'
    let allocated := (pf (← split_states[0]?)).1
    let idle := (pf (← split_states[1]?)).1
    let other := (pf (← split_states[2]?)).1
    let total := (pf (← split_states[3]?)).1
    let partitions ← Map.modify? partitions partition (fun r => { r with cpus_allocated := allocated })
    let partitions ← Map.modify? partitions partition (fun r => { r with cpus_idle := idle })
    let partitions ← Map.modify? partitions partition (fun r => { r with cpus_other := other })
    Map.modify? partitions partition (fun r => { r with cpus_total := total })
  else some partitions

/-- The body of the second loop, for one line of the running-job text. -/
def partitionsRunningLine (partitions : Map Str PartitionMetrics) (partition : Str) :
    Option (Map Str PartitionMetrics) :=
  if Map.contains partitions partition then do
    let partitions ← Map.modify? partitions partition
      (fun r => { r with jobs_running := Float64.add r.jobs_running (Float64.fin 1) })
    Map.modify? partitions partition
      (fun r => { r with jobs_total := Float64.add r.jobs_total (Float64.fin 1) })
  else some partitions

/-- The body of the third loop, for one line of the pending-job text. -/
def partitionsPendingLine (partitions : Map Str PartitionMetrics) (partition : Str) :
    Option (Map Str PartitionMetrics) :=
  if Map.contains partitions partition then do
    let partitions ← Map.modify? partitions partition
      (fun r => { r with jobs_pending := Float64.add r.jobs_pending (Float64.fin 1) })
    Map.modify? partitions partition
      (fun r => { r with jobs_total := Float64.add r.jobs_total (Float64.fin 1) })
  else some partitions

/-- Go `ParsePartitionsMetrics`, on the output of `PartitionsData()`, of
`PartitionsJobsData("RUNNING")` and of `PartitionsJobsData("PENDING")`. -/
def ParsePartitionsMetrics (pf : ParseFloatFn) (data running pending : Str) :
    Option (Map Str PartitionMetrics) := do
  let partitions ← (Split data '\n').foldlM (partitionsStateLine pf) []
  let partitions ← (Split running '\n').foldlM partitionsRunningLine partitions
  (Split pending '\n').foldlM partitionsPendingLine partitions

/-- A sample sent on the channel: the name of its descriptor, its value and
its label values. -/
structure Sample where
  desc : String
  value : Float64
  labels : List Str
  deriving DecidableEq

/-- The samples `PartitionsCollector.Collect` sends for the entry `p` of the
mapping. -/
def partitionSamples (p : Str) (r : PartitionMetrics) : List Sample :=
  (if Float64.lt (Float64.fin 0) r.cpus_allocated
    then [⟨"slurm_partition_cpus_allocated", r.cpus_allocated, [p]⟩] else [])
  ++ (if Float64.lt (Float64.fin 0) r.cpus_idle
    then [⟨"slurm_partition_cpus_idle", r.cpus_idle, [p]⟩] else [])
  ++ (if Float64.lt (Float64.fin 0) r.cpus_other
    then [⟨"slurm_partition_cpus_other", r.cpus_other, [p]⟩] else [])
  ++ (if Float64.lt (Float64.fin 0) r.jobs_running
    then [⟨"slurm_partition_jobs_running", r.jobs_running, [p]⟩] else [])
  ++ (if Float64.lt (Float64.fin 0) r.jobs_pending
    then [⟨"slurm_partition_jobs_pending", r.jobs_pending, [p]⟩] else [])
  ++ (if Float64.lt (Float64.fin 0) r.jobs_total
    then [⟨"slurm_partition_jobs_total", r.jobs_total, [p]⟩] else [])
  ++ (if Float64.lt (Float64.fin 0) r.cpus_total
    then [⟨"slurm_partition_cpus_total", r.cpus_total, [p]⟩] else [])

/-- Go `PartitionsCollector.Collect`: the samples sent on the channel, the
entries of the mapping visited in the order of the association list. -/
def PartitionsCollector.Collect (pf : ParseFloatFn) (data running pending : Str) :
    Option (List Sample) := do
  let pm ← ParsePartitionsMetrics pf data running pending
  some (pm.flatMap (fun e => partitionSamples e.1 e.2))

/-! ## qos.go -/

/-- The record of one QoS. -/
structure QosMetrics where
  cpus_allocated : Float64
  jobs_running : Float64
  jobs_pending : Float64
  jobs_total : Float64
  deriving DecidableEq

/-- The body of the first loop of `ParseQosMetrics`, for one line of the
running-job text. -/
def qosRunningLine (pf : ParseFloatFn) (qoses : Map Str QosMetrics) (line : Str) :
    Option (Map Str QosMetrics) :=
  if Contains line ',' then do
    let split_line := Split line ','
    let qos ← split_line[0]?
    if qos = [] then some qoses
    else do
      let qoses :=
        if Map.contains qoses qos then qoses
        else Map.set qoses qos ⟨Float64.fin 0, Float64.fin 0, Float64.fin 0, Float64.fin 0⟩
      let cpus := (pf (← (Split line ',')[1]?)).1
      let qoses ← Map.modify? qoses qos
        (fun r => { r with cpus_allocated := Float64.add r.cpus_allocated cpus })
      let qoses ← Map.modify? qoses qos
        (fun r => { r with jobs_running := Float64.add r.jobs_running (Float64.fin 1) })
      Map.modify? qoses qos
        (fun r => { r with jobs_total := Float64.add r.jobs_total (Float64.fin 1) })
  else some qoses

/-- The body of the second loop, for one line of the pending-job text. -/
def qosPendingLine (qoses : Map Str QosMetrics) (qos : Str) : Option (Map Str QosMetrics) :=
  if qos = [] then some qoses
  else do
    let qoses :=
      if Map.contains qoses qos then qoses
      else Map.set qoses qos ⟨Float64.fin 0, Float64.fin 0, Float64.fin 0, Float64.fin 0⟩
    let qoses ← Map.modify? qoses qos
      (fun r => { r with jobs_pending := Float64.add r.jobs_pending (Float64.fin 1) })
    Map.modify? qoses qos
      (fun r => { r with jobs_total := Float64.add r.jobs_total (Float64.fin 1) })

/-- Go `ParseQosMetrics`, on the output of `QosJobsData("RUNNING", "%q,%C")`
and of `QosJobsData("PENDING", "%q")`. -/
def ParseQosMetrics (pf : ParseFloatFn) (running pending : Str) : Option (Map Str QosMetrics) := do
  let qoses ← (Split running '\n').foldlM (qosRunningLine pf) []
  (Split pending '\n').foldlM qosPendingLine qoses

/-- The samples `QosCollector.Collect` sends for the entry `p` of the mapping. -/
def qosSamples (p : Str) (r : QosMetrics) : List Sample :=
  (if Float64.lt (Float64.fin 0) r.cpus_allocated
    then [⟨"slurm_qos_cpus_allocated", r.cpus_allocated, [p]⟩] else [])
  ++ (if Float64.lt (Float64.fin 0) r.jobs_running
    then [⟨"slurm_qos_jobs_running", r.jobs_running, [p]⟩] else [])
  ++ (if Float64.lt (Float64.fin 0) r.jobs_pending
    then [⟨"slurm_qos_jobs_pending", r.jobs_pending, [p]⟩] else [])
  ++ (if Float64.lt (Float64.fin 0) r.jobs_total
    then [⟨"slurm_qos_jobs_total", r.jobs_total, [p]⟩] else [])

/-- Go `QosCollector.Collect`. -/
def QosCollector.Collect (pf : ParseFloatFn) (running pending : Str) : Option (List Sample) := do
  let pm ← ParseQosMetrics pf running pending
  some (pm.flatMap (fun e => qosSamples e.1 e.2))

/-! ## sshare.go -/

/-- The record of one user and account. -/
structure FairShareMetrics where
  fairshare : Float64
  deriving DecidableEq

/-- The key of the fair-share mapping. -/
structure UserAccount where
  user : Str
  account : Str
  deriving DecidableEq

/-- The body of the loop of `ParseFairShareMetrics`, for one line. -/
def fairShareLine (pf : ParseFloatFn) (metrics : Map UserAccount FairShareMetrics) (line : Str) :
    Option (Map UserAccount FairShareMetrics) :=
  if !HasPrefix line [' ', ' '] then
    if Contains line '|' then do
      let items := Split line '|'
      let user := Trim (← items[0]?) ' '
      let account := Trim (← items[1]?) ' '
      let user_account : UserAccount := ⟨user, account⟩
      let key := Map.contains metrics user_account
      let fairshare := (pf (← items[2]?)).1
      if !key then some (Map.set metrics user_account ⟨fairshare⟩)
      else Map.modify? metrics user_account (fun r => { r with fairshare := fairshare })
    else some metrics
  else some metrics

/-- Go `ParseFairShareMetrics`, on the output of `FairShareData()`. -/
def ParseFairShareMetrics (pf : ParseFloatFn) (data : Str) :
    Option (Map UserAccount FairShareMetrics) :=
  (Split data '\n').foldlM (fairShareLine pf) []

/-- Go `FairShareCollector.Collect`. -/
def FairShareCollector.Collect (pf : ParseFloatFn) (data : Str) : Option (List Sample) := do
  let fsm ← ParseFairShareMetrics pf data
  some (fsm.map (fun e => ⟨"slurm_user_fairshare", e.2.fairshare, [e.1.user, e.1.account]⟩))

/-! ## Predicates used in the statements -/

/-- The counters of a record hold natural numbers, the total their sum. -/
def JobsCounted (running pending total : Float64) : Prop :=
  ∃ a b : ℕ, running = Float64.fin a ∧ pending = Float64.fin b ∧ total = Float64.fin (a + b)

/-- The job counters of a partition record are counted. -/
def PartitionMetrics.Counted (r : PartitionMetrics) : Prop :=
  JobsCounted r.jobs_running r.jobs_pending r.jobs_total

/-- The job counters of a QoS record are counted. -/
def QosMetrics.Counted (r : QosMetrics) : Prop :=
  JobsCounted r.jobs_running r.jobs_pending r.jobs_total

namespace Map

variable {K V : Type} [DecidableEq K]

/-- The map with `f` applied to the record at `k`; unchanged when there is none. -/
def update (m : Map K V) (k : K) (f : V → V) : Map K V :=
  match get? m k with
  | some v => set m k (f v)
  | none => m

/-- The map with `f` applied to the record at `k`, to the fresh record `d`
when there is none yet. -/
def upsert (m : Map K V) (k : K) (d : V) (f : V → V) : Map K V :=
  set m k (f ((get? m k).getD d))

end Map

/-- The record `&PartitionMetrics{0, 0, 0, 0, 0, 0, 0}`. -/
def PartitionMetrics.zero : PartitionMetrics :=
  ⟨Float64.fin 0, Float64.fin 0, Float64.fin 0, Float64.fin 0, Float64.fin 0, Float64.fin 0,
    Float64.fin 0⟩

/-- The record `&QosMetrics{0, 0, 0, 0}`. -/
def QosMetrics.zero : QosMetrics := ⟨Float64.fin 0, Float64.fin 0, Float64.fin 0, Float64.fin 0⟩

/-- The fields a partition-state line is read into: the partition name and
the four positions of the CPU-state field. -/
structure StateFields where
  partition : Str
  allocated : Str
  idle : Str
  other : Str
  total : Str
  deriving DecidableEq

/-- The slice indexing of the first loop of `ParsePartitionsMetrics` on a
line: `none` when an index is out of range. -/
def stateFields (line : Str) : Option StateFields := do
  let split_line := Split line ','
  let partition ← split_line[0]?
  let states ← split_line[1]?
  let split_states := Split states '/'
  let allocated ← split_states[0]?
  let idle ← split_states[1]?
  let other ← split_states[2]?
  let total ← split_states[3]?
  some ⟨partition, allocated, idle, other, total⟩

/-- The four assignments of the first loop to the record of the partition. -/
def PartitionMetrics.setCpus (pf : ParseFloatFn) (x : StateFields) (r : PartitionMetrics) :
    PartitionMetrics :=
  { r with
    cpus_allocated := (pf x.allocated).1
    cpus_idle := (pf x.idle).1
    cpus_other := (pf x.other).1
    cpus_total := (pf x.total).1 }

/-- The two increments of the second loop. -/
def PartitionMetrics.addRunning (r : PartitionMetrics) : PartitionMetrics :=
  { r with
    jobs_running := Float64.add r.jobs_running (Float64.fin 1)
    jobs_total := Float64.add r.jobs_total (Float64.fin 1) }

/-- The two increments of the third loop. -/
def PartitionMetrics.addPending (r : PartitionMetrics) : PartitionMetrics :=
  { r with
    jobs_pending := Float64.add r.jobs_pending (Float64.fin 1)
    jobs_total := Float64.add r.jobs_total (Float64.fin 1) }

/-- The first piece of `strings.Split(line, sep)`. -/
def firstField (line : Str) (sep : Char) : Str := (splitAux sep line).1

/-- The second piece of `strings.Split(line, sep)`, empty when there is none. -/
def secondField (line : Str) (sep : Char) : Str := (splitAux sep line).2.headD []

/-- The three updates of the first loop of `ParseQosMetrics`. -/
def QosMetrics.addRunning (cpus : Float64) (r : QosMetrics) : QosMetrics :=
  { r with
    cpus_allocated := Float64.add r.cpus_allocated cpus
    jobs_running := Float64.add r.jobs_running (Float64.fin 1)
    jobs_total := Float64.add r.jobs_total (Float64.fin 1) }

/-- The two increments of the second loop of `ParseQosMetrics`. -/
def QosMetrics.addPending (r : QosMetrics) : QosMetrics :=
  { r with
    jobs_pending := Float64.add r.jobs_pending (Float64.fin 1)
    jobs_total := Float64.add r.jobs_total (Float64.fin 1) }

/-- Whether a line of the running-job text of the QoS query is counted: it
has a comma and a non-empty first field. -/
def qosCounted (line : Str) : Bool := Contains line ',' && decide (firstField line ',' ≠ [])

/-- One step of the first loop of `ParseQosMetrics` as a total function. -/
def qosRunningStep (pf : ParseFloatFn) (m : Map Str QosMetrics) (line : Str) : Map Str QosMetrics :=
  if qosCounted line then
    Map.upsert m (firstField line ',') QosMetrics.zero
      (QosMetrics.addRunning (pf (secondField line ',')).1)
  else m

/-- One step of the second loop of `ParseQosMetrics` as a total function. -/
def qosPendingStep (m : Map Str QosMetrics) (qos : Str) : Map Str QosMetrics :=
  if qos = [] then m else Map.upsert m qos QosMetrics.zero QosMetrics.addPending

/-- The third piece of `strings.Split(line, sep)`, when there is one. -/
def thirdField? (line : Str) (sep : Char) : Option Str := (Split line sep)[2]?

/-- The key a fair-share line is stored under: the first two fields, trimmed
of spaces. -/
def fairShareKey (line : Str) : UserAccount :=
  ⟨Trim (firstField line '|') ' ', Trim (secondField line '|') ' '⟩

/-- Whether a fair-share line is read: it does not start with two spaces
and has a `|`. -/
def fairShareRead (line : Str) : Bool := !HasPrefix line [' ', ' '] && Contains line '|'

/-- The seven counter fields of a partition record. -/
inductive PartitionField where
  | cpus_allocated
  | cpus_idle
  | cpus_other
  | jobs_running
  | jobs_pending
  | jobs_total
  | cpus_total
  deriving DecidableEq

/-- The descriptor `NewPartitionsCollector` makes for the field. -/
def PartitionField.desc : PartitionField → String
  | .cpus_allocated => "slurm_partition_cpus_allocated"
  | .cpus_idle => "slurm_partition_cpus_idle"
  | .cpus_other => "slurm_partition_cpus_other"
  | .jobs_running => "slurm_partition_jobs_running"
  | .jobs_pending => "slurm_partition_jobs_pending"
  | .jobs_total => "slurm_partition_jobs_total"
  | .cpus_total => "slurm_partition_cpus_total"

/-- The value of the field in a record. -/
def PartitionField.val : PartitionField → PartitionMetrics → Float64
  | .cpus_allocated, r => r.cpus_allocated
  | .cpus_idle, r => r.cpus_idle
  | .cpus_other, r => r.cpus_other
  | .jobs_running, r => r.jobs_running
  | .jobs_pending, r => r.jobs_pending
  | .jobs_total, r => r.jobs_total
  | .cpus_total, r => r.cpus_total

/-- The four counter fields of a QoS record. -/
inductive QosField where
  | cpus_allocated
  | jobs_running
  | jobs_pending
  | jobs_total
  deriving DecidableEq

/-- The descriptor `NewQosCollector` makes for the field. -/
def QosField.desc : QosField → String
  | .cpus_allocated => "slurm_qos_cpus_allocated"
  | .jobs_running => "slurm_qos_jobs_running"
  | .jobs_pending => "slurm_qos_jobs_pending"
  | .jobs_total => "slurm_qos_jobs_total"

/-- The value of the field in a record. -/
def QosField.val : QosField → QosMetrics → Float64
  | .cpus_allocated, r => r.cpus_allocated
  | .jobs_running, r => r.jobs_running
  | .jobs_pending, r => r.jobs_pending
  | .jobs_total, r => r.jobs_total

/-- The samples of `out` that carry the descriptor `desc` and the single
label value `p`. -/
def samplesAt (out : List Sample) (desc : String) (p : Str) : List Sample :=
  out.filter (fun s => decide (s.desc = desc ∧ s.labels = [p]))

/-- Whether a line of the partition-state text names the partition `n`: it
has a comma and its first field is `n`. -/
def namesPartition (line n : Str) : Bool := Contains line ',' && decide (firstField line ',' = n)

/-- The state line `n,a/i/o/t`. -/
def stateLineOf (n a i o t : Str) : Str := n ++ ',' :: (a ++ '/' :: (i ++ '/' :: (o ++ '/' :: t)))

/-- Whether the first loop of `ParsePartitionsMetrics` gets through a line
without an index out of range: the line has no comma, or it has the four CPU
positions. -/
def stateLineOk (line : Str) : Bool := !Contains line ',' || (stateFields line).isSome

/-- The job counters of a partition record are all zero. -/
def PartitionMetrics.NoJobs (r : PartitionMetrics) : Prop :=
  r.jobs_running = Float64.fin 0 ∧ r.jobs_pending = Float64.fin 0 ∧ r.jobs_total = Float64.fin 0

/-- Whether `k` is a partition name of the state text: some line of the text
names it. -/
def knownPartition (data k : Str) : Bool := (Split data '\n').any (fun l => namesPartition l k)

/-- Whether the loop of `ParseFairShareMetrics` gets through a line without
an index out of range: the line is not read, or it has a third field. -/
def fairShareLineOk (line : Str) : Bool := !fairShareRead line || (thirdField? line '|').isSome

/-- Whether a line of the running-job text of the QoS query is counted for
the QoS `q`: it has a comma, and its first field is `q` and not empty. -/
def qosNames (line q : Str) : Bool := qosCounted line && decide (firstField line ',' = q)

/-- The CPU counts read from the second field of the running-job lines
counted for `q`, in the order of the lines. -/
def qosCpus (pf : ParseFloatFn) (lines : List Str) (q : Str) : List Float64 :=
  (lines.filter (fun l => qosNames l q)).map (fun l => (pf (secondField l ',')).1)

/-- The float64 sum of a list, added up from 0 in the order of the list. -/
def Float64.sum (xs : List Float64) : Float64 := xs.foldl Float64.add (Float64.fin 0)

/-- The QoS record made by running jobs with the CPU counts `cs` and by `k`
pending jobs. -/
def qosRecord (cs : List Float64) (k : ℕ) : QosMetrics :=
  ⟨Float64.sum cs, Float64.fin cs.length, Float64.fin k, Float64.fin (cs.length + k)⟩

/-- Whether a fair-share line is read and stored under the key `k`. -/
def fairShareNames (line : Str) (k : UserAccount) : Bool :=
  fairShareRead line && decide (fairShareKey line = k)

/-- The fair-share line `U|A|V`. -/
def fairShareLineOf (u a v : Str) : Str := u ++ '|' :: (a ++ '|' :: v)

/-- The body of the first loop of `ParseQosMetrics` with the float64 addition
of `qoses[qos].cpus_allocated += cpus` left open as the argument `fadd`; the
increments by 1 of the two job counters are kept as in `qosRunningLine`.
With `Float64.add` for `fadd` this is `qosRunningLine`. -/
def qosRunningLineWith (fadd : Float64 → Float64 → Float64) (pf : ParseFloatFn)
    (qoses : Map Str QosMetrics) (line : Str) : Option (Map Str QosMetrics) :=
  if Contains line ',' then do
    let split_line := Split line ','
    let qos ← split_line[0]?
    if qos = [] then some qoses
    else do
      let qoses :=
        if Map.contains qoses qos then qoses
        else Map.set qoses qos ⟨Float64.fin 0, Float64.fin 0, Float64.fin 0, Float64.fin 0⟩
      let cpus := (pf (← (Split line ',')[1]?)).1
      let qoses ← Map.modify? qoses qos
        (fun r => { r with cpus_allocated := fadd r.cpus_allocated cpus })
      let qoses ← Map.modify? qoses qos
        (fun r => { r with jobs_running := Float64.add r.jobs_running (Float64.fin 1) })
      Map.modify? qoses qos
        (fun r => { r with jobs_total := Float64.add r.jobs_total (Float64.fin 1) })
  else some qoses

/-- Go `ParseQosMetrics` with the float64 addition of the CPU counts left open
as the argument `fadd`.  With `Float64.add` for `fadd` this is
`ParseQosMetrics`. -/
def ParseQosMetricsWith (fadd : Float64 → Float64 → Float64) (pf : ParseFloatFn)
    (running pending : Str) : Option (Map Str QosMetrics) := do
  let qoses ← (Split running '\n').foldlM (qosRunningLineWith fadd pf) []
  (Split pending '\n').foldlM qosPendingLine qoses

/-- The three updates of the first loop of `ParseQosMetricsWith`. -/
def QosMetrics.addRunningWith (fadd : Float64 → Float64 → Float64) (cpus : Float64)
    (r : QosMetrics) : QosMetrics :=
  { r with
    cpus_allocated := fadd r.cpus_allocated cpus
    jobs_running := Float64.add r.jobs_running (Float64.fin 1)
    jobs_total := Float64.add r.jobs_total (Float64.fin 1) }

/-- One step of the first loop of `ParseQosMetricsWith` as a total function. -/
def qosRunningStepWith (fadd : Float64 → Float64 → Float64) (pf : ParseFloatFn)
    (m : Map Str QosMetrics) (line : Str) : Map Str QosMetrics :=
  if qosCounted line then
    Map.upsert m (firstField line ',') QosMetrics.zero
      (QosMetrics.addRunningWith fadd (pf (secondField line ',')).1)
  else m

/-! # Theorems -/

/-! ## Lemmas on loops and maps -/

theorem foldlM_some_inv {α β : Type} (I : β → Prop) (step : β → α → Option β)
    (hstep : ∀ b a b', I b → step b a = some b' → I b') :
    ∀ (ls : List α) (b b' : β), I b → ls.foldlM step b = some b' → I b' := by
  intro ls
  induction ls with
  | nil =>
    intro b b' hb h
    simp at h
    subst h
    exact hb
  | cons a ls ih =>
    intro b b' hb h
    simp only [List.foldlM_cons] at h
    cases hs : step b a with
    | none => simp [hs] at h
    | some b1 =>
      simp [hs] at h
      exact ih b1 b' (hstep b a b1 hb hs) h

namespace Map

variable {K V : Type} [DecidableEq K]

theorem mem_of_get? {m : Map K V} {k : K} {v : V} (h : get? m k = some v) : (k, v) ∈ m := by
  induction m with
  | nil => simp [get?] at h
  | cons e m ih =>
    obtain ⟨k', v'⟩ := e
    simp only [get?] at h
    by_cases hk : k' = k
    · simp [hk] at h
      simp [hk, h]
    · simp [hk] at h
      exact List.mem_cons_of_mem _ (ih h)

theorem mem_set {m : Map K V} {k : K} {v : V} {e : K × V} (h : e ∈ set m k v) :
    e ∈ m ∨ e = (k, v) := by
  induction m with
  | nil =>
    simp [set] at h
    exact Or.inr h
  | cons e' m ih =>
    obtain ⟨k', v'⟩ := e'
    simp only [set] at h
    by_cases hk : k' = k
    · simp [hk] at h
      rcases h with h | h
      · exact Or.inr h
      · exact Or.inl (List.mem_cons_of_mem _ h)
    · simp [hk] at h
      rcases h with h | h
      · exact Or.inl (by simp [h])
      · rcases ih h with h' | h'
        · exact Or.inl (List.mem_cons_of_mem _ h')
        · exact Or.inr h'

/-- Every record of the map satisfies `P`. -/
theorem all_set (P : V → Prop) {m : Map K V} {k : K} {v : V}
    (hm : ∀ e ∈ m, P e.2) (hv : P v) : ∀ e ∈ set m k v, P e.2 := by
  intro e he
  rcases mem_set he with h | h
  · exact hm e h
  · subst h
    exact hv

theorem all_modify? (P : V → Prop) {m m' : Map K V} {k : K} {f : V → V}
    (hm : ∀ e ∈ m, P e.2) (h : modify? m k f = some m') (hf : ∀ v, P v → P (f v)) :
    ∀ e ∈ m', P e.2 := by
  unfold modify? at h
  cases hg : get? m k with
  | none => simp [hg] at h
  | some v =>
    simp [hg] at h
    subst h
    exact all_set P hm (hf v (hm _ (mem_of_get? hg)))

end Map

/-! ## The job counters -/

theorem JobsCounted.eq_add {r p t : Float64} (h : JobsCounted r p t) :
    t = Float64.add r p ∧ Float64.eq t (Float64.add r p) = true := by
  obtain ⟨a, b, rfl, rfl, rfl⟩ := h
  simp [Float64.add, Float64.eq]

theorem JobsCounted.zero : JobsCounted (Float64.fin 0) (Float64.fin 0) (Float64.fin 0) :=
  ⟨0, 0, by simp, by simp, by simp⟩

theorem JobsCounted.running {r p t : Float64} (h : JobsCounted r p t) :
    JobsCounted (Float64.add r (Float64.fin 1)) p (Float64.add t (Float64.fin 1)) := by
  obtain ⟨a, b, rfl, rfl, rfl⟩ := h
  refine ⟨a + 1, b, ?_, rfl, ?_⟩
  · simp [Float64.add]
  · simp [Float64.add]; ring

theorem JobsCounted.pending {r p t : Float64} (h : JobsCounted r p t) :
    JobsCounted r (Float64.add p (Float64.fin 1)) (Float64.add t (Float64.fin 1)) := by
  obtain ⟨a, b, rfl, rfl, rfl⟩ := h
  refine ⟨a, b + 1, rfl, ?_, ?_⟩
  · simp [Float64.add]
  · simp [Float64.add]; ring

namespace Map

variable {K V : Type} [DecidableEq K]

theorem get?_set_self (m : Map K V) (k : K) (v : V) : get? (set m k v) k = some v := by
  induction m with
  | nil => simp [set, get?]
  | cons e m ih =>
    obtain ⟨k', v'⟩ := e
    by_cases hk : k' = k
    · simp [set, get?, hk]
    · simp [set, get?, hk, ih]

theorem get?_set_ne (m : Map K V) {k k' : K} (v : V) (hk : k ≠ k') :
    get? (set m k v) k' = get? m k' := by
  induction m with
  | nil => simp [set, get?, hk]
  | cons e m ih =>
    obtain ⟨k0, v0⟩ := e
    by_cases h0 : k0 = k
    · subst h0
      simp [set, get?, hk]
    · by_cases h1 : k0 = k'
      · subst h1
        simp [set, get?, h0]
      · simp [set, get?, h0, h1, ih]

theorem set_set (m : Map K V) (k : K) (v w : V) : set (set m k v) k w = set m k w := by
  induction m with
  | nil => simp [set]
  | cons e m ih =>
    obtain ⟨k', v'⟩ := e
    by_cases hk : k' = k
    · simp [set, hk]
    · simp [set, hk, ih]

theorem modify?_modify? {m m1 : Map K V} {k : K} {f : V → V} (g : V → V)
    (h : modify? m k f = some m1) : modify? m1 k g = modify? m k (fun v => g (f v)) := by
  unfold modify? at h ⊢
  cases hg : get? m k with
  | none => simp [hg] at h
  | some v =>
    simp [hg] at h
    subst h
    simp [get?_set_self, set_set]

theorem modify?_isSome {m : Map K V} {k : K} (f : V → V) (h : contains m k = true) :
    ∃ v, get? m k = some v ∧ modify? m k f = some (set m k (f v)) := by
  unfold contains at h
  cases hg : get? m k with
  | none => simp [hg] at h
  | some v => exact ⟨v, rfl, by simp [modify?, hg]⟩

end Map

theorem partitionsStateLine_counted (pf : ParseFloatFn) (m m' : Map Str PartitionMetrics)
    (line : Str) (hm : ∀ e ∈ m, e.2.Counted)
    (h : partitionsStateLine pf m line = some m') : ∀ e ∈ m', e.2.Counted := by
  unfold partitionsStateLine at h
  split at h
  · simp only [Option.bind_eq_bind, Option.bind_eq_some] at h
    obtain ⟨partition, -, states, -, a, -, i, -, o, -, t, -, m1, h1, m2, h2, m3, h3, h4⟩ := h
    have h0 : ∀ e ∈ (if Map.contains m partition then m else Map.set m partition
        ⟨Float64.fin 0, Float64.fin 0, Float64.fin 0, Float64.fin 0, Float64.fin 0,
          Float64.fin 0, Float64.fin 0⟩), e.2.Counted := by
      split
      · exact hm
      · exact Map.all_set _ hm JobsCounted.zero
    have k1 := Map.all_modify? PartitionMetrics.Counted h0 h1 (fun v hv => hv)
    have k2 := Map.all_modify? PartitionMetrics.Counted k1 h2 (fun v hv => hv)
    have k3 := Map.all_modify? PartitionMetrics.Counted k2 h3 (fun v hv => hv)
    exact Map.all_modify? PartitionMetrics.Counted k3 h4 (fun v hv => hv)
  · simp at h
    subst h
    exact hm

theorem partitionsRunningLine_counted (m m' : Map Str PartitionMetrics)
    (line : Str) (hm : ∀ e ∈ m, e.2.Counted)
    (h : partitionsRunningLine m line = some m') : ∀ e ∈ m', e.2.Counted := by
  unfold partitionsRunningLine at h
  split at h
  · simp only [Option.bind_eq_bind, Option.bind_eq_some] at h
    obtain ⟨m1, h1, h2⟩ := h
    rw [Map.modify?_modify? _ h1] at h2
    exact Map.all_modify? PartitionMetrics.Counted hm h2 (fun v hv => JobsCounted.running hv)
  · simp at h
    subst h
    exact hm

theorem partitionsPendingLine_counted (m m' : Map Str PartitionMetrics)
    (line : Str) (hm : ∀ e ∈ m, e.2.Counted)
    (h : partitionsPendingLine m line = some m') : ∀ e ∈ m', e.2.Counted := by
  unfold partitionsPendingLine at h
  split at h
  · simp only [Option.bind_eq_bind, Option.bind_eq_some] at h
    obtain ⟨m1, h1, h2⟩ := h
    rw [Map.modify?_modify? _ h1] at h2
    exact Map.all_modify? PartitionMetrics.Counted hm h2 (fun v hv => JobsCounted.pending hv)
  · simp at h
    subst h
    exact hm

theorem ParsePartitionsMetrics_counted (pf : ParseFloatFn) (data running pending : Str)
    (m : Map Str PartitionMetrics) (h : ParsePartitionsMetrics pf data running pending = some m) :
    ∀ e ∈ m, e.2.Counted := by
  unfold ParsePartitionsMetrics at h
  simp only [Option.bind_eq_bind, Option.bind_eq_some] at h
  obtain ⟨m1, h1, m2, h2, h3⟩ := h
  have k1 := foldlM_some_inv (fun m : Map Str PartitionMetrics => ∀ e ∈ m, e.2.Counted) _
    (fun b a b' hb hs => partitionsStateLine_counted pf b b' a hb hs) _ _ _ (by simp) h1
  have k2 := foldlM_some_inv (fun m : Map Str PartitionMetrics => ∀ e ∈ m, e.2.Counted) _
    (fun b a b' hb hs => partitionsRunningLine_counted b b' a hb hs) _ _ _ k1 h2
  exact foldlM_some_inv (fun m : Map Str PartitionMetrics => ∀ e ∈ m, e.2.Counted) _
    (fun b a b' hb hs => partitionsPendingLine_counted b b' a hb hs) _ _ _ k2 h3

/-- C1: in every record of the mapping `ParsePartitionsMetrics` returns,
`jobs_total == jobs_running + jobs_pending`. -/
theorem partitions_jobs_total_eq (pf : ParseFloatFn) (data running pending : Str)
    (m : Map Str PartitionMetrics) (h : ParsePartitionsMetrics pf data running pending = some m)
    (p : Str) (r : PartitionMetrics) (hr : Map.get? m p = some r) :
    Float64.eq r.jobs_total (Float64.add r.jobs_running r.jobs_pending) = true
      ∧ r.jobs_total = Float64.add r.jobs_running r.jobs_pending := by
  have hc := ParsePartitionsMetrics_counted pf data running pending m h _ (Map.mem_of_get? hr)
  exact ⟨(JobsCounted.eq_add hc).2, (JobsCounted.eq_add hc).1⟩

theorem partitions_jobs_total_eq_witness :
    ParsePartitionsMetrics ParseFloat "gpu,10/5/0/15\ncpu,1/2/3/6\n".toList
        "gpu\ngpu\nhimem\n".toList "gpu\n".toList
      = some [("gpu".toList, ⟨.fin 10, .fin 5, .fin 0, .fin 2, .fin 1, .fin 3, .fin 15⟩),
          ("cpu".toList, ⟨.fin 1, .fin 2, .fin 3, .fin 0, .fin 0, .fin 0, .fin 6⟩)]
    ∧ Float64.eq (Float64.fin 3) (Float64.add (Float64.fin 2) (Float64.fin 1)) = true
    ∧ Float64.fin 3 = Float64.add (Float64.fin 2) (Float64.fin 1) :=
  ⟨by decide!,
    partitions_jobs_total_eq ParseFloat "gpu,10/5/0/15\ncpu,1/2/3/6\n".toList
      "gpu\ngpu\nhimem\n".toList "gpu\n".toList
      [("gpu".toList, ⟨.fin 10, .fin 5, .fin 0, .fin 2, .fin 1, .fin 3, .fin 15⟩),
        ("cpu".toList, ⟨.fin 1, .fin 2, .fin 3, .fin 0, .fin 0, .fin 0, .fin 6⟩)]
      (by decide!) "gpu".toList
      ⟨.fin 10, .fin 5, .fin 0, .fin 2, .fin 1, .fin 3, .fin 15⟩ (by decide!)⟩

theorem qosRunningLine_counted (pf : ParseFloatFn) (m m' : Map Str QosMetrics)
    (line : Str) (hm : ∀ e ∈ m, e.2.Counted)
    (h : qosRunningLine pf m line = some m') : ∀ e ∈ m', e.2.Counted := by
  unfold qosRunningLine at h
  split at h
  · simp only [Option.bind_eq_bind, Option.bind_eq_some] at h
    obtain ⟨qos, -, h⟩ := h
    split at h
    · simp at h
      subst h
      exact hm
    · simp only [Option.bind_eq_bind, Option.bind_eq_some] at h
      obtain ⟨c, -, m1, h1, m2, h2, h3⟩ := h
      have h0 : ∀ e ∈ (if Map.contains m qos then m else Map.set m qos
          ⟨Float64.fin 0, Float64.fin 0, Float64.fin 0, Float64.fin 0⟩), e.2.Counted := by
        split
        · exact hm
        · exact Map.all_set _ hm JobsCounted.zero
      have k1 := Map.all_modify? QosMetrics.Counted h0 h1 (fun v hv => hv)
      rw [Map.modify?_modify? _ h2] at h3
      exact Map.all_modify? QosMetrics.Counted k1 h3 (fun v hv => JobsCounted.running hv)
  · simp at h
    subst h
    exact hm

theorem qosPendingLine_counted (m m' : Map Str QosMetrics)
    (line : Str) (hm : ∀ e ∈ m, e.2.Counted)
    (h : qosPendingLine m line = some m') : ∀ e ∈ m', e.2.Counted := by
  unfold qosPendingLine at h
  split at h
  · simp at h
    subst h
    exact hm
  · simp only [Option.bind_eq_bind, Option.bind_eq_some] at h
    obtain ⟨m1, h1, h2⟩ := h
    have h0 : ∀ e ∈ (if Map.contains m line then m else Map.set m line
        ⟨Float64.fin 0, Float64.fin 0, Float64.fin 0, Float64.fin 0⟩), e.2.Counted := by
      split
      · exact hm
      · exact Map.all_set _ hm JobsCounted.zero
    rw [Map.modify?_modify? _ h1] at h2
    exact Map.all_modify? QosMetrics.Counted h0 h2 (fun v hv => JobsCounted.pending hv)

theorem ParseQosMetrics_counted (pf : ParseFloatFn) (running pending : Str)
    (m : Map Str QosMetrics) (h : ParseQosMetrics pf running pending = some m) :
    ∀ e ∈ m, e.2.Counted := by
  unfold ParseQosMetrics at h
  simp only [Option.bind_eq_bind, Option.bind_eq_some] at h
  obtain ⟨m1, h1, h2⟩ := h
  have k1 := foldlM_some_inv (fun m : Map Str QosMetrics => ∀ e ∈ m, e.2.Counted) _
    (fun b a b' hb hs => qosRunningLine_counted pf b b' a hb hs) _ _ _ (by simp) h1
  exact foldlM_some_inv (fun m : Map Str QosMetrics => ∀ e ∈ m, e.2.Counted) _
    (fun b a b' hb hs => qosPendingLine_counted b b' a hb hs) _ _ _ k1 h2

/-- C2: in every record of the mapping `ParseQosMetrics` returns,
`jobs_total == jobs_running + jobs_pending`. -/
theorem qos_jobs_total_eq (pf : ParseFloatFn) (running pending : Str)
    (m : Map Str QosMetrics) (h : ParseQosMetrics pf running pending = some m)
    (q : Str) (r : QosMetrics) (hr : Map.get? m q = some r) :
    Float64.eq r.jobs_total (Float64.add r.jobs_running r.jobs_pending) = true
      ∧ r.jobs_total = Float64.add r.jobs_running r.jobs_pending := by
  have hc := ParseQosMetrics_counted pf running pending m h _ (Map.mem_of_get? hr)
  exact ⟨(JobsCounted.eq_add hc).2, (JobsCounted.eq_add hc).1⟩

theorem qos_jobs_total_eq_witness :
    ParseQosMetrics ParseFloat "normal,4\n,4\nhigh,x\nnormal,2\n".toList "normal\nlow\n".toList
      = some [("normal".toList, ⟨.fin 6, .fin 2, .fin 1, .fin 3⟩),
          ("high".toList, ⟨.fin 0, .fin 1, .fin 0, .fin 1⟩),
          ("low".toList, ⟨.fin 0, .fin 0, .fin 1, .fin 1⟩)]
    ∧ Float64.eq (Float64.fin 3) (Float64.add (Float64.fin 2) (Float64.fin 1)) = true
    ∧ Float64.fin 3 = Float64.add (Float64.fin 2) (Float64.fin 1) :=
  ⟨by decide!,
    qos_jobs_total_eq ParseFloat "normal,4\n,4\nhigh,x\nnormal,2\n".toList "normal\nlow\n".toList
      [("normal".toList, ⟨.fin 6, .fin 2, .fin 1, .fin 3⟩),
        ("high".toList, ⟨.fin 0, .fin 1, .fin 0, .fin 1⟩),
        ("low".toList, ⟨.fin 0, .fin 0, .fin 1, .fin 1⟩)]
      (by decide!) "normal".toList ⟨.fin 6, .fin 2, .fin 1, .fin 3⟩ (by decide!)⟩

/-! ## Closed forms of the loop bodies -/

theorem foldlM_eq_foldl {α β : Type} (step : β → α → Option β) (g : β → α → β)
    (h : ∀ b a, step b a = some (g b a)) (ls : List α) (b : β) :
    ls.foldlM step b = some (ls.foldl g b) := by
  induction ls generalizing b with
  | nil => simp
  | cons a ls ih => simp [h, ih]

namespace Map

variable {K V : Type} [DecidableEq K]

theorem set_of_get? {m : Map K V} {k : K} {v : V} (h : get? m k = some v) : set m k v = m := by
  induction m with
  | nil => simp [get?] at h
  | cons e m ih =>
    obtain ⟨k', v'⟩ := e
    by_cases hk : k' = k
    · simp [get?, hk] at h
      simp [set, hk, h]
    · simp [get?, hk] at h
      simp [set, hk, ih h]

theorem modify?_set (m : Map K V) (k : K) (v : V) (f : V → V) :
    modify? (set m k v) k f = some (set m k (f v)) := by
  simp [modify?, get?_set_self, set_set]

theorem modify?_eq_update {m : Map K V} {k : K} (f : V → V) (h : contains m k = true) :
    modify? m k f = some (update m k f) := by
  obtain ⟨v, hv, hm⟩ := modify?_isSome f h
  simp [hm, update, hv]

theorem update_of_not_contains {m : Map K V} {k : K} (f : V → V) (h : contains m k = false) :
    update m k f = m := by
  unfold contains at h
  cases hg : get? m k with
  | none => simp [update, hg]
  | some v => simp [hg] at h

theorem ensure_eq_set (m : Map K V) (k : K) (d : V) :
    (if contains m k = true then m else set m k d) = set m k ((get? m k).getD d) := by
  unfold contains
  cases hg : get? m k with
  | none => simp
  | some v => simp [set_of_get? hg]

end Map

theorem partitionsRunningLine_eq (m : Map Str PartitionMetrics) (p : Str) :
    partitionsRunningLine m p = some (Map.update m p PartitionMetrics.addRunning) := by
  unfold partitionsRunningLine
  by_cases hc : Map.contains m p = true
  · obtain ⟨v, hv, hm⟩ := Map.modify?_isSome
      (fun r : PartitionMetrics =>
        { r with jobs_running := Float64.add r.jobs_running (Float64.fin 1) }) hc
    simp only [hc, if_true, Option.bind_eq_bind, hm, Option.some_bind, Map.modify?_set]
    simp [Map.update, hv, PartitionMetrics.addRunning]
  · simp only [Bool.not_eq_true] at hc
    simp [hc, Map.update_of_not_contains]

theorem partitionsPendingLine_eq (m : Map Str PartitionMetrics) (p : Str) :
    partitionsPendingLine m p = some (Map.update m p PartitionMetrics.addPending) := by
  unfold partitionsPendingLine
  by_cases hc : Map.contains m p = true
  · obtain ⟨v, hv, hm⟩ := Map.modify?_isSome
      (fun r : PartitionMetrics =>
        { r with jobs_pending := Float64.add r.jobs_pending (Float64.fin 1) }) hc
    simp only [hc, if_true, Option.bind_eq_bind, hm, Option.some_bind, Map.modify?_set]
    simp [Map.update, hv, PartitionMetrics.addPending]
  · simp only [Bool.not_eq_true] at hc
    simp [hc, Map.update_of_not_contains]

theorem partitionsStateLine_eq (pf : ParseFloatFn) (m : Map Str PartitionMetrics) (line : Str) :
    partitionsStateLine pf m line =
      if Contains line ',' = true then
        (stateFields line).map
          (fun x => Map.upsert m x.partition PartitionMetrics.zero (PartitionMetrics.setCpus pf x))
      else some m := by
  unfold partitionsStateLine stateFields
  split
  · simp only [Option.bind_eq_bind, Map.ensure_eq_set]
    cases (Split line ',')[0]? with
    | none => simp
    | some p =>
      simp only [Option.some_bind]
      cases (Split line ',')[1]? with
      | none => simp
      | some st =>
        simp only [Option.some_bind]
        cases (Split st '/')[0]? with
        | none => simp
        | some a =>
          simp only [Option.some_bind]
          cases (Split st '/')[1]? with
          | none => simp
          | some i =>
            simp only [Option.some_bind]
            cases (Split st '/')[2]? with
            | none => simp
            | some o =>
              simp only [Option.some_bind]
              cases (Split st '/')[3]? with
              | none => simp
              | some t =>
                simp only [Option.some_bind, Map.modify?_set, Option.map_some']
                rfl
  · rfl

theorem splitAux_snd_ne_nil (sep : Char) (s : Str) (h : sep ∈ s) : (splitAux sep s).2 ≠ [] := by
  induction s with
  | nil => simp at h
  | cons c cs ih =>
    by_cases hc : c = sep
    · simp [splitAux, hc]
    · have h' : sep ∈ cs := by
        rcases List.mem_cons.mp h with h1 | h1
        · exact absurd h1.symm hc
        · exact h1
      simp [splitAux, hc, ih h']

theorem Split_zero (s : Str) (sep : Char) : (Split s sep)[0]? = some (firstField s sep) := by
  simp [Split, firstField]

theorem Split_one (s : Str) (sep : Char) (h : Contains s sep = true) :
    (Split s sep)[1]? = some (secondField s sep) := by
  have hne := splitAux_snd_ne_nil sep s (by simpa [Contains] using h)
  unfold Split secondField
  cases hs : (splitAux sep s).2 with
  | nil => exact absurd hs hne
  | cons a as => simp

theorem qosRunningLine_eq (pf : ParseFloatFn) (m : Map Str QosMetrics) (line : Str) :
    qosRunningLine pf m line = some (qosRunningStep pf m line) := by
  unfold qosRunningLine qosRunningStep qosCounted
  by_cases hc : Contains line ',' = true
  · simp only [hc, if_true, Option.bind_eq_bind, Split_zero, Split_one _ _ hc, Option.some_bind,
      Map.ensure_eq_set, Map.modify?_set, Bool.true_and]
    by_cases hq : firstField line ',' = []
    · simp [hq]
    · simp only [hq, if_false, decide_not, decide_False, Bool.not_false, if_true]
      rfl
  · simp [hc]

theorem qosPendingLine_eq (m : Map Str QosMetrics) (qos : Str) :
    qosPendingLine m qos = some (qosPendingStep m qos) := by
  unfold qosPendingLine qosPendingStep
  by_cases hq : qos = []
  · simp [hq]
  · simp only [hq, if_false, Option.bind_eq_bind, Map.ensure_eq_set, Map.modify?_set,
      Option.some_bind]
    rfl

theorem ParseQosMetrics_eq (pf : ParseFloatFn) (running pending : Str) :
    ParseQosMetrics pf running pending =
      some ((Split pending '\n').foldl qosPendingStep
        ((Split running '\n').foldl (qosRunningStep pf) [])) := by
  unfold ParseQosMetrics
  rw [foldlM_eq_foldl _ _ (qosRunningLine_eq pf)]
  simp only [Option.bind_eq_bind, Option.some_bind]
  rw [foldlM_eq_foldl _ _ qosPendingLine_eq]

theorem fairShareLine_eq (pf : ParseFloatFn) (m : Map UserAccount FairShareMetrics) (line : Str) :
    fairShareLine pf m line =
      if fairShareRead line = true then
        (thirdField? line '|').map (fun v => Map.set m (fairShareKey line) ⟨(pf v).1⟩)
      else some m := by
  unfold fairShareLine fairShareRead thirdField? fairShareKey
  by_cases hp : HasPrefix line [' ', ' '] = true
  · simp [hp]
  · simp only [Bool.not_eq_true] at hp
    by_cases hc : Contains line '|' = true
    · simp only [hp, hc, Bool.not_false, if_true, Option.bind_eq_bind, Split_zero,
        Split_one _ _ hc, Option.some_bind, Bool.and_self]
      cases (Split line '|')[2]? with
      | none => simp
      | some v =>
        simp only [Option.some_bind, Option.map_some']
        by_cases hk : Map.contains m ⟨Trim (firstField line '|') ' ',
            Trim (secondField line '|') ' '⟩ = true
        · obtain ⟨r, -, hm⟩ := Map.modify?_isSome
            (fun r : FairShareMetrics => { r with fairshare := (pf v).1 }) hk
          simp [hk, hm]
        · simp [hk]
    · simp [hp, hc]

namespace Map

variable {K V : Type} [DecidableEq K]

theorem mem_keys_iff (m : Map K V) (k : K) : k ∈ keys m ↔ ∃ v, get? m k = some v := by
  induction m with
  | nil => simp [keys, get?]
  | cons e m ih =>
    obtain ⟨k', v'⟩ := e
    by_cases hk : k' = k
    · simp [keys, get?, hk]
    · have hk' : ¬ k = k' := fun h => hk h.symm
      simp only [keys, List.map_cons, List.mem_cons, get?, hk, hk', if_false, false_or]
      exact ih

theorem contains_iff_mem_keys (m : Map K V) (k : K) : contains m k = true ↔ k ∈ keys m := by
  rw [mem_keys_iff]
  unfold contains
  cases get? m k <;> simp

theorem keys_set (m : Map K V) (k : K) (v : V) :
    keys (set m k v) = if k ∈ keys m then keys m else keys m ++ [k] := by
  induction m with
  | nil => simp [set, keys]
  | cons e m ih =>
    obtain ⟨k', v'⟩ := e
    by_cases hk : k' = k
    · simp [set, keys, hk]
    · have hk' : ¬ k = k' := fun h => hk h.symm
      have ih' : List.map Prod.fst (set m k v)
          = if k ∈ List.map Prod.fst m then List.map Prod.fst m else List.map Prod.fst m ++ [k] := ih
      simp only [set, hk, if_false, keys, List.map_cons, List.mem_cons, hk', false_or, ih']
      split <;> simp

theorem nodup_keys_set {m : Map K V} (k : K) (v : V) (h : (keys m).Nodup) :
    (keys (set m k v)).Nodup := by
  rw [keys_set]
  split
  · exact h
  · rename_i hk
    rw [List.nodup_append]
    refine ⟨h, List.nodup_singleton k, ?_⟩
    intro a ha hb
    rw [List.mem_singleton] at hb
    subst hb
    exact hk ha

theorem keys_update (m : Map K V) (k : K) (f : V → V) : keys (update m k f) = keys m := by
  unfold update
  cases hg : get? m k with
  | none => rfl
  | some v =>
    have hk : k ∈ keys m := (mem_keys_iff m k).mpr ⟨v, hg⟩
    simp [keys_set, hk]

theorem keys_upsert (m : Map K V) (k : K) (d : V) (f : V → V) :
    keys (upsert m k d f) = if k ∈ keys m then keys m else keys m ++ [k] := by
  unfold upsert
  exact keys_set m k _

theorem get?_update_self (m : Map K V) (k : K) (f : V → V) :
    get? (update m k f) k = (get? m k).map f := by
  unfold update
  cases hg : get? m k with
  | none => simp [hg]
  | some v => simp [get?_set_self]

theorem get?_update_ne (m : Map K V) {k k' : K} (f : V → V) (hk : k ≠ k') :
    get? (update m k f) k' = get? m k' := by
  unfold update
  cases hg : get? m k with
  | none => rfl
  | some v => simp [get?_set_ne _ _ hk]

theorem get?_upsert_self (m : Map K V) (k : K) (d : V) (f : V → V) :
    get? (upsert m k d f) k = some (f ((get? m k).getD d)) := by
  simp [upsert, get?_set_self]

theorem get?_upsert_ne (m : Map K V) {k k' : K} (d : V) (f : V → V) (hk : k ≠ k') :
    get? (upsert m k d f) k' = get? m k' := by
  simp [upsert, get?_set_ne _ _ hk]

theorem get?_of_mem {m : Map K V} (hn : (keys m).Nodup) {k : K} {v : V} (h : (k, v) ∈ m) :
    get? m k = some v := by
  induction m with
  | nil => simp at h
  | cons e m ih =>
    obtain ⟨k', v'⟩ := e
    simp only [keys, List.map_cons, List.nodup_cons] at hn
    rcases List.mem_cons.mp h with h1 | h1
    · simp only [Prod.mk.injEq] at h1
      simp [get?, h1.1, h1.2]
    · have hk : k' ≠ k := by
        intro hk
        subst hk
        exact hn.1 (List.mem_map.mpr ⟨(k', v), h1, rfl⟩)
      simp only [get?, hk, if_false]
      exact ih hn.2 h1

end Map

/-! ## The keys of the returned mappings are pairwise distinct -/

theorem nodup_foldl {α V : Type} (g : Map Str V → α → Map Str V)
    (hg : ∀ m a, (Map.keys m).Nodup → (Map.keys (g m a)).Nodup) (ls : List α) (m : Map Str V)
    (hm : (Map.keys m).Nodup) : (Map.keys (ls.foldl g m)).Nodup := by
  induction ls generalizing m with
  | nil => exact hm
  | cons a ls ih => exact ih _ (hg m a hm)

theorem qosRunningStep_nodup (pf : ParseFloatFn) (m : Map Str QosMetrics) (line : Str)
    (hm : (Map.keys m).Nodup) : (Map.keys (qosRunningStep pf m line)).Nodup := by
  unfold qosRunningStep
  split
  · exact Map.nodup_keys_set _ _ hm
  · exact hm

theorem qosPendingStep_nodup (m : Map Str QosMetrics) (line : Str)
    (hm : (Map.keys m).Nodup) : (Map.keys (qosPendingStep m line)).Nodup := by
  unfold qosPendingStep
  split
  · exact hm
  · exact Map.nodup_keys_set _ _ hm

theorem ParseQosMetrics_nodup (pf : ParseFloatFn) (running pending : Str)
    (m : Map Str QosMetrics) (h : ParseQosMetrics pf running pending = some m) :
    (Map.keys m).Nodup := by
  rw [ParseQosMetrics_eq] at h
  simp only [Option.some.injEq] at h
  subst h
  exact nodup_foldl _ qosPendingStep_nodup _ _
    (nodup_foldl _ (qosRunningStep_nodup pf) _ _ (by simp [Map.keys]))

theorem partitionsStateLine_nodup (pf : ParseFloatFn) (m m' : Map Str PartitionMetrics)
    (line : Str) (hm : (Map.keys m).Nodup) (h : partitionsStateLine pf m line = some m') :
    (Map.keys m').Nodup := by
  rw [partitionsStateLine_eq] at h
  split at h
  · cases hs : stateFields line with
    | none => simp [hs] at h
    | some x =>
      simp only [hs, Option.map_some', Option.some.injEq] at h
      subst h
      exact Map.nodup_keys_set _ _ hm
  · simp only [Option.some.injEq] at h
    subst h
    exact hm

theorem ParsePartitionsMetrics_eq (pf : ParseFloatFn) (data running pending : Str) :
    ParsePartitionsMetrics pf data running pending =
      ((Split data '\n').foldlM (partitionsStateLine pf) []).map
        (fun m => (Split pending '\n').foldl (fun m p => Map.update m p PartitionMetrics.addPending)
          ((Split running '\n').foldl (fun m p => Map.update m p PartitionMetrics.addRunning) m)) := by
  unfold ParsePartitionsMetrics
  cases (Split data '\n').foldlM (partitionsStateLine pf) [] with
  | none => rfl
  | some m =>
    simp only [Option.bind_eq_bind, Option.some_bind, Option.map_some']
    rw [foldlM_eq_foldl _ _ partitionsRunningLine_eq]
    simp only [Option.some_bind]
    rw [foldlM_eq_foldl _ _ partitionsPendingLine_eq]

theorem keys_foldl_update {V : Type} (f : V → V) (ls : List Str) (m : Map Str V) :
    Map.keys (ls.foldl (fun m p => Map.update m p f) m) = Map.keys m := by
  induction ls generalizing m with
  | nil => rfl
  | cons a ls ih => simp [ih, Map.keys_update]

theorem ParsePartitionsMetrics_nodup (pf : ParseFloatFn) (data running pending : Str)
    (m : Map Str PartitionMetrics) (h : ParsePartitionsMetrics pf data running pending = some m) :
    (Map.keys m).Nodup := by
  rw [ParsePartitionsMetrics_eq] at h
  cases hs : (Split data '\n').foldlM (partitionsStateLine pf) [] with
  | none => simp [hs] at h
  | some m0 =>
    simp only [hs, Option.map_some', Option.some.injEq] at h
    subst h
    rw [keys_foldl_update, keys_foldl_update]
    exact foldlM_some_inv (fun m : Map Str PartitionMetrics => (Map.keys m).Nodup) _
      (fun b a b' hb hs => partitionsStateLine_nodup pf b b' a hb hs) _ _ _
      (by simp [Map.keys]) hs

/-! ## The collectors -/

theorem samplesAt_flatMap {V : Type} (g : Str → V → List Sample)
    (hg : ∀ k v, ∀ s ∈ g k v, s.labels = [k]) (desc : String) (p : Str) (r : V) :
    ∀ (m : Map Str V), (Map.keys m).Nodup → Map.get? m p = some r →
      samplesAt (m.flatMap (fun e => g e.1 e.2)) desc p = samplesAt (g p r) desc p := by
  have hnone : ∀ (m : Map Str V), p ∉ Map.keys m →
      samplesAt (m.flatMap (fun e => g e.1 e.2)) desc p = [] := by
    intro m hp
    unfold samplesAt
    rw [List.filter_eq_nil_iff]
    intro s hs
    simp only [List.mem_flatMap] at hs
    obtain ⟨e, he, hs⟩ := hs
    have hl := hg _ _ s hs
    have hne : e.1 ≠ p := by
      intro h
      exact hp (h ▸ List.mem_map.mpr ⟨e, he, rfl⟩)
    simp [hl, hne]
  intro m
  induction m with
  | nil => intro _ h; simp [Map.get?] at h
  | cons e m ih =>
    obtain ⟨k', v'⟩ := e
    intro hn hr
    simp only [Map.keys, List.map_cons, List.nodup_cons] at hn
    simp only [List.flatMap_cons]
    unfold samplesAt
    rw [List.filter_append]
    by_cases hk : k' = p
    · subst hk
      simp only [Map.get?, if_true, Option.some.injEq] at hr
      subst hr
      have h0 := hnone m hn.1
      unfold samplesAt at h0
      rw [h0, List.append_nil]
    · simp only [Map.get?, hk, if_false] at hr
      have h1 := ih hn.2 hr
      unfold samplesAt at h1
      rw [h1]
      have h2 : List.filter (fun s => decide (s.desc = desc ∧ s.labels = [p])) (g k' v') = [] := by
        rw [List.filter_eq_nil_iff]
        intro s hs
        simp [hg _ _ s hs, hk]
      rw [h2, List.nil_append]

theorem partitionSamples_labels (k : Str) (v : PartitionMetrics) :
    ∀ s ∈ partitionSamples k v, s.labels = [k] := by
  intro s hs
  simp only [partitionSamples, List.mem_append] at hs
  rcases hs with (((((hs | hs) | hs) | hs) | hs) | hs) | hs <;>
    · split at hs
      · simp only [List.mem_singleton] at hs
        rw [hs]
      · simp at hs

theorem partitionSamples_at (p : Str) (r : PartitionMetrics) (f : PartitionField) :
    samplesAt (partitionSamples p r) f.desc p =
      if Float64.lt (Float64.fin 0) (f.val r) = true then [⟨f.desc, f.val r, [p]⟩] else [] := by
  cases f <;>
    simp [samplesAt, partitionSamples, List.filter_append, PartitionField.desc, PartitionField.val,
      apply_ite (List.filter _), List.filter_cons]

theorem partitionSamples_mem (p : Str) (r : PartitionMetrics) (s : Sample)
    (hs : s ∈ partitionSamples p r) :
    ∃ f : PartitionField, Float64.lt (Float64.fin 0) (f.val r) = true ∧ s = ⟨f.desc, f.val r, [p]⟩ := by
  simp only [partitionSamples, List.mem_append] at hs
  rcases hs with (((((hs | hs) | hs) | hs) | hs) | hs) | hs
  · split at hs
    · exact ⟨.cpus_allocated, by assumption, by simpa using hs⟩
    · simp at hs
  · split at hs
    · exact ⟨.cpus_idle, by assumption, by simpa using hs⟩
    · simp at hs
  · split at hs
    · exact ⟨.cpus_other, by assumption, by simpa using hs⟩
    · simp at hs
  · split at hs
    · exact ⟨.jobs_running, by assumption, by simpa using hs⟩
    · simp at hs
  · split at hs
    · exact ⟨.jobs_pending, by assumption, by simpa using hs⟩
    · simp at hs
  · split at hs
    · exact ⟨.jobs_total, by assumption, by simpa using hs⟩
    · simp at hs
  · split at hs
    · exact ⟨.cpus_total, by assumption, by simpa using hs⟩
    · simp at hs

theorem qosSamples_labels (k : Str) (v : QosMetrics) : ∀ s ∈ qosSamples k v, s.labels = [k] := by
  intro s hs
  simp only [qosSamples, List.mem_append] at hs
  rcases hs with ((hs | hs) | hs) | hs <;>
    · split at hs
      · simp only [List.mem_singleton] at hs
        rw [hs]
      · simp at hs

theorem qosSamples_at (p : Str) (r : QosMetrics) (f : QosField) :
    samplesAt (qosSamples p r) f.desc p =
      if Float64.lt (Float64.fin 0) (f.val r) = true then [⟨f.desc, f.val r, [p]⟩] else [] := by
  cases f <;>
    simp [samplesAt, qosSamples, List.filter_append, QosField.desc, QosField.val,
      apply_ite (List.filter _), List.filter_cons]

theorem qosSamples_mem (p : Str) (r : QosMetrics) (s : Sample) (hs : s ∈ qosSamples p r) :
    ∃ f : QosField, Float64.lt (Float64.fin 0) (f.val r) = true ∧ s = ⟨f.desc, f.val r, [p]⟩ := by
  simp only [qosSamples, List.mem_append] at hs
  rcases hs with ((hs | hs) | hs) | hs
  · split at hs
    · exact ⟨.cpus_allocated, by assumption, by simpa using hs⟩
    · simp at hs
  · split at hs
    · exact ⟨.jobs_running, by assumption, by simpa using hs⟩
    · simp at hs
  · split at hs
    · exact ⟨.jobs_pending, by assumption, by simpa using hs⟩
    · simp at hs
  · split at hs
    · exact ⟨.jobs_total, by assumption, by simpa using hs⟩
    · simp at hs

theorem Float64.ne_zero_of_pos {v : Float64} (h : Float64.lt (Float64.fin 0) v = true) :
    v ≠ Float64.fin 0 ∧ Float64.eq v (Float64.fin 0) = false := by
  cases v with
  | fin q =>
    simp only [Float64.lt, decide_eq_true_eq] at h
    have hq : q ≠ 0 := ne_of_gt h
    simp [Float64.eq, hq]
  | inf s => simp [Float64.eq]
  | nan => simp [Float64.eq]

/-- C3 (amended): the partition and the QoS collector send no sample whose
value is zero, every value sent being greater than zero, and send nothing for
a record whose fields are all zero; the fair-share collector sends one sample
for every record of its mapping, whatever the value. -/
theorem collect_zero_suppression (pf : ParseFloatFn) :
    (∀ data running pending out, PartitionsCollector.Collect pf data running pending = some out →
      ∀ s ∈ out, Float64.lt (Float64.fin 0) s.value = true ∧ s.value ≠ Float64.fin 0
        ∧ Float64.eq s.value (Float64.fin 0) = false)
    ∧ (∀ p, partitionSamples p PartitionMetrics.zero = [])
    ∧ (∀ running pending out, QosCollector.Collect pf running pending = some out →
      ∀ s ∈ out, Float64.lt (Float64.fin 0) s.value = true ∧ s.value ≠ Float64.fin 0
        ∧ Float64.eq s.value (Float64.fin 0) = false)
    ∧ (∀ p, qosSamples p QosMetrics.zero = [])
    ∧ (∀ data m, ParseFairShareMetrics pf data = some m →
      FairShareCollector.Collect pf data
        = some (m.map (fun e => ⟨"slurm_user_fairshare", e.2.fairshare, [e.1.user, e.1.account]⟩))) := by
  refine ⟨?_, ?_, ?_, ?_, ?_⟩
  · intro data running pending out h s hs
    unfold PartitionsCollector.Collect at h
    cases hm : ParsePartitionsMetrics pf data running pending with
    | none => simp [hm] at h
    | some m =>
      simp only [hm, Option.bind_eq_bind, Option.some_bind, Option.some.injEq] at h
      subst h
      simp only [List.mem_flatMap] at hs
      obtain ⟨e, -, hs⟩ := hs
      obtain ⟨f, hf, rfl⟩ := partitionSamples_mem _ _ _ hs
      exact ⟨hf, Float64.ne_zero_of_pos hf⟩
  · intro p
    simp [partitionSamples, PartitionMetrics.zero, Float64.lt]
  · intro running pending out h s hs
    unfold QosCollector.Collect at h
    cases hm : ParseQosMetrics pf running pending with
    | none => simp [hm] at h
    | some m =>
      simp only [hm, Option.bind_eq_bind, Option.some_bind, Option.some.injEq] at h
      subst h
      simp only [List.mem_flatMap] at hs
      obtain ⟨e, -, hs⟩ := hs
      obtain ⟨f, hf, rfl⟩ := qosSamples_mem _ _ _ hs
      exact ⟨hf, Float64.ne_zero_of_pos hf⟩
  · intro p
    simp [qosSamples, QosMetrics.zero, Float64.lt]
  · intro data m hm
    simp [FairShareCollector.Collect, hm]

theorem collect_zero_suppression_witness :
    (∀ s ∈ [(⟨"slurm_partition_cpus_allocated", .fin 10, ["gpu".toList]⟩ : Sample),
        ⟨"slurm_partition_cpus_idle", .fin 5, ["gpu".toList]⟩,
        ⟨"slurm_partition_cpus_total", .fin 15, ["gpu".toList]⟩],
      Float64.lt (Float64.fin 0) s.value = true ∧ s.value ≠ Float64.fin 0
        ∧ Float64.eq s.value (Float64.fin 0) = false)
    ∧ (∀ s ∈ [(⟨"slurm_qos_cpus_allocated", .fin 4, ["normal".toList]⟩ : Sample),
        ⟨"slurm_qos_jobs_running", .fin 1, ["normal".toList]⟩,
        ⟨"slurm_qos_jobs_total", .fin 1, ["normal".toList]⟩],
      Float64.lt (Float64.fin 0) s.value = true ∧ s.value ≠ Float64.fin 0
        ∧ Float64.eq s.value (Float64.fin 0) = false)
    ∧ FairShareCollector.Collect ParseFloat "alice|teamA|0.5\nbob|teamB|0".toList
        = some (List.map
          (fun e => ⟨"slurm_user_fairshare", e.2.fairshare, [e.1.user, e.1.account]⟩)
          [((⟨"alice".toList, "teamA".toList⟩ : UserAccount), (⟨.fin (1 / 2)⟩ : FairShareMetrics)),
            (⟨"bob".toList, "teamB".toList⟩, ⟨.fin 0⟩)]) :=
  ⟨(collect_zero_suppression ParseFloat).1 "gpu,10/5/0/15".toList [] [] _ (by decide!),
    (collect_zero_suppression ParseFloat).2.2.1 "normal,4".toList [] _ (by decide!),
    (collect_zero_suppression ParseFloat).2.2.2.2 "alice|teamA|0.5\nbob|teamB|0".toList _
      (by decide!)⟩

/-- C3, as stated, fails for the fair-share collector: on the text
`alice|teamA|0` it sends a sample whose value is zero, for a record whose only
field is zero. -/
theorem collect_zero_suppression_counterexample :
    ParseFairShareMetrics ParseFloat "alice|teamA|0".toList
        = some [(⟨"alice".toList, "teamA".toList⟩, ⟨Float64.fin 0⟩)]
    ∧ FairShareCollector.Collect ParseFloat "alice|teamA|0".toList
        = some [⟨"slurm_user_fairshare", Float64.fin 0, ["alice".toList, "teamA".toList]⟩]
    ∧ ¬ (∀ out, FairShareCollector.Collect ParseFloat "alice|teamA|0".toList = some out →
        ∀ s ∈ out, s.value ≠ Float64.fin 0) := by
  refine ⟨by decide!, by decide!, ?_⟩
  intro h
  exact h [⟨"slurm_user_fairshare", Float64.fin 0, ["alice".toList, "teamA".toList]⟩]
    (by decide!) _ (List.mem_singleton.mpr rfl) rfl

/-- C4: for each record of the mapping and each of its counter fields, the
partition and the QoS collector send exactly one sample with the descriptor of
the field and the key of the record as label, carrying the value of the field,
when that value is greater than zero, none otherwise; and they send nothing
else. -/
theorem collect_emits_exactly_positive (pf : ParseFloatFn) :
    (∀ data running pending m, ParsePartitionsMetrics pf data running pending = some m →
      ∃ out, PartitionsCollector.Collect pf data running pending = some out
        ∧ (∀ p r, Map.get? m p = some r → ∀ f : PartitionField,
            samplesAt out f.desc p =
              if Float64.lt (Float64.fin 0) (f.val r) = true then [⟨f.desc, f.val r, [p]⟩] else [])
        ∧ (∀ s ∈ out, ∃ p r, ∃ f : PartitionField, Map.get? m p = some r
            ∧ Float64.lt (Float64.fin 0) (f.val r) = true ∧ s = ⟨f.desc, f.val r, [p]⟩))
    ∧ (∀ running pending m, ParseQosMetrics pf running pending = some m →
      ∃ out, QosCollector.Collect pf running pending = some out
        ∧ (∀ p r, Map.get? m p = some r → ∀ f : QosField,
            samplesAt out f.desc p =
              if Float64.lt (Float64.fin 0) (f.val r) = true then [⟨f.desc, f.val r, [p]⟩] else [])
        ∧ (∀ s ∈ out, ∃ p r, ∃ f : QosField, Map.get? m p = some r
            ∧ Float64.lt (Float64.fin 0) (f.val r) = true ∧ s = ⟨f.desc, f.val r, [p]⟩)) := by
  constructor
  · intro data running pending m hm
    have hn := ParsePartitionsMetrics_nodup pf data running pending m hm
    refine ⟨m.flatMap (fun e => partitionSamples e.1 e.2), ?_, ?_, ?_⟩
    · simp [PartitionsCollector.Collect, hm]
    · intro p r hr f
      rw [samplesAt_flatMap partitionSamples partitionSamples_labels f.desc p r m hn hr]
      exact partitionSamples_at p r f
    · intro s hs
      simp only [List.mem_flatMap] at hs
      obtain ⟨e, he, hs⟩ := hs
      obtain ⟨f, hf, hsf⟩ := partitionSamples_mem _ _ _ hs
      exact ⟨e.1, e.2, f, Map.get?_of_mem hn he, hf, hsf⟩
  · intro running pending m hm
    have hn := ParseQosMetrics_nodup pf running pending m hm
    refine ⟨m.flatMap (fun e => qosSamples e.1 e.2), ?_, ?_, ?_⟩
    · simp [QosCollector.Collect, hm]
    · intro p r hr f
      rw [samplesAt_flatMap qosSamples qosSamples_labels f.desc p r m hn hr]
      exact qosSamples_at p r f
    · intro s hs
      simp only [List.mem_flatMap] at hs
      obtain ⟨e, he, hs⟩ := hs
      obtain ⟨f, hf, hsf⟩ := qosSamples_mem _ _ _ hs
      exact ⟨e.1, e.2, f, Map.get?_of_mem hn he, hf, hsf⟩

theorem collect_emits_exactly_positive_witness :
    (∃ out, PartitionsCollector.Collect ParseFloat "gpu,10/5/0/15\ncpu,0/8/0/8".toList
          "gpu\ngpu".toList "cpu".toList = some out
        ∧ (∀ p r, Map.get? [("gpu".toList,
                (⟨.fin 10, .fin 5, .fin 0, .fin 2, .fin 0, .fin 2, .fin 15⟩ : PartitionMetrics)),
              ("cpu".toList, ⟨.fin 0, .fin 8, .fin 0, .fin 0, .fin 1, .fin 1, .fin 8⟩)] p = some r →
            ∀ f : PartitionField, samplesAt out f.desc p =
              if Float64.lt (Float64.fin 0) (f.val r) = true then [⟨f.desc, f.val r, [p]⟩] else [])
        ∧ (∀ s ∈ out, ∃ p r, ∃ f : PartitionField, Map.get? [("gpu".toList,
                (⟨.fin 10, .fin 5, .fin 0, .fin 2, .fin 0, .fin 2, .fin 15⟩ : PartitionMetrics)),
              ("cpu".toList, ⟨.fin 0, .fin 8, .fin 0, .fin 0, .fin 1, .fin 1, .fin 8⟩)] p = some r
            ∧ Float64.lt (Float64.fin 0) (f.val r) = true ∧ s = ⟨f.desc, f.val r, [p]⟩))
    ∧ (∃ out, QosCollector.Collect ParseFloat "normal,4".toList "low".toList = some out
        ∧ (∀ p r, Map.get? [("normal".toList, (⟨.fin 4, .fin 1, .fin 0, .fin 1⟩ : QosMetrics)),
              ("low".toList, ⟨.fin 0, .fin 0, .fin 1, .fin 1⟩)] p = some r →
            ∀ f : QosField, samplesAt out f.desc p =
              if Float64.lt (Float64.fin 0) (f.val r) = true then [⟨f.desc, f.val r, [p]⟩] else [])
        ∧ (∀ s ∈ out, ∃ p r, ∃ f : QosField,
            Map.get? [("normal".toList, (⟨.fin 4, .fin 1, .fin 0, .fin 1⟩ : QosMetrics)),
              ("low".toList, ⟨.fin 0, .fin 0, .fin 1, .fin 1⟩)] p = some r
            ∧ Float64.lt (Float64.fin 0) (f.val r) = true ∧ s = ⟨f.desc, f.val r, [p]⟩)) :=
  ⟨(collect_emits_exactly_positive ParseFloat).1 "gpu,10/5/0/15\ncpu,0/8/0/8".toList
      "gpu\ngpu".toList "cpu".toList _ (by decide!),
    (collect_emits_exactly_positive ParseFloat).2 "normal,4".toList "low".toList _ (by decide!)⟩

/-! ## Splitting -/

theorem splitAux_of_not_mem (sep : Char) (x : Str) (h : sep ∉ x) : splitAux sep x = (x, []) := by
  induction x with
  | nil => rfl
  | cons c cs ih =>
    simp only [List.mem_cons, not_or] at h
    have hc : ¬ c = sep := fun e => h.1 e.symm
    simp [splitAux, hc, ih h.2]

theorem splitAux_append (sep : Char) (x y : Str) (h : sep ∉ x) :
    splitAux sep (x ++ sep :: y) = (x, (splitAux sep y).1 :: (splitAux sep y).2) := by
  induction x with
  | nil => simp [splitAux]
  | cons c cs ih =>
    simp only [List.mem_cons, not_or] at h
    have hc : ¬ c = sep := fun e => h.1 e.symm
    simp [splitAux, hc, ih h.2]

theorem Split_of_not_mem (sep : Char) (x : Str) (h : sep ∉ x) : Split x sep = [x] := by
  simp [Split, splitAux_of_not_mem sep x h]

theorem Split_append (sep : Char) (x y : Str) (h : sep ∉ x) :
    Split (x ++ sep :: y) sep = x :: Split y sep := by
  simp [Split, splitAux_append sep x y h]

theorem stateFields_partition {l : Str} {x : StateFields} (h : stateFields l = some x) :
    x.partition = firstField l ',' := by
  unfold stateFields at h
  simp only [Option.bind_eq_bind, Option.bind_eq_some, Split_zero, Option.some.injEq] at h
  obtain ⟨p, hp, st, -, a, -, i, -, o, -, t, -, hx⟩ := h
  rw [← hx, ← hp]

theorem stateFields_stateLineOf (n a i o t : Str) (hn : ',' ∉ n)
    (ha : ',' ∉ a ∧ '/' ∉ a) (hi : ',' ∉ i ∧ '/' ∉ i) (ho : ',' ∉ o ∧ '/' ∉ o)
    (ht : ',' ∉ t ∧ '/' ∉ t) :
    stateFields (stateLineOf n a i o t) = some ⟨n, a, i, o, t⟩ := by
  have hrest : ',' ∉ a ++ '/' :: (i ++ '/' :: (o ++ '/' :: t)) := by
    simp [ha.1, hi.1, ho.1, ht.1]
  have h1 : Split (stateLineOf n a i o t) ',' = [n, a ++ '/' :: (i ++ '/' :: (o ++ '/' :: t))] := by
    unfold stateLineOf
    rw [Split_append _ _ _ hn, Split_of_not_mem _ _ hrest]
  have h2 : Split (a ++ '/' :: (i ++ '/' :: (o ++ '/' :: t))) '/' = [a, i, o, t] := by
    rw [Split_append _ _ _ ha.2, Split_append _ _ _ hi.2, Split_append _ _ _ ho.2,
      Split_of_not_mem _ _ ht.2]
  unfold stateFields
  simp [h1, h2]

theorem Contains_stateLineOf (n a i o t : Str) : Contains (stateLineOf n a i o t) ',' = true := by
  simp [Contains, stateLineOf]

/-! ## The first loop of `ParsePartitionsMetrics` -/

theorem partitionsStateLine_isSome (pf : ParseFloatFn) (m : Map Str PartitionMetrics) (l : Str) :
    (partitionsStateLine pf m l).isSome = stateLineOk l := by
  rw [partitionsStateLine_eq]
  unfold stateLineOk
  by_cases hc : Contains l ',' = true
  · simp [hc]
  · simp [hc]

theorem foldlM_isSome {α β : Type} (step : β → α → Option β) (ok : α → Bool)
    (h : ∀ b a, (step b a).isSome = ok a) (ls : List α) (b : β) :
    (ls.foldlM step b).isSome = ls.all ok := by
  induction ls generalizing b with
  | nil => simp
  | cons a ls ih =>
    simp only [List.foldlM_cons, List.all_cons]
    cases hs : step b a with
    | none =>
      have := h b a
      simp only [hs, Option.isSome_none] at this
      simp [← this]
    | some b1 =>
      have := h b a
      simp only [hs, Option.isSome_some] at this
      simp [← this, ih]

theorem ParsePartitionsMetrics_isSome (pf : ParseFloatFn) (data running pending : Str) :
    (ParsePartitionsMetrics pf data running pending).isSome = (Split data '\n').all stateLineOk := by
  rw [ParsePartitionsMetrics_eq, Option.isSome_map']
  exact foldlM_isSome _ _ (partitionsStateLine_isSome pf) _ _

theorem partitionsStateLine_get?_other (pf : ParseFloatFn) (m m' : Map Str PartitionMetrics)
    (l n : Str) (hl : namesPartition l n = false) (h : partitionsStateLine pf m l = some m') :
    Map.get? m' n = Map.get? m n := by
  rw [partitionsStateLine_eq] at h
  by_cases hc : Contains l ',' = true
  · simp only [hc, if_true] at h
    cases hs : stateFields l with
    | none => simp [hs] at h
    | some x =>
      simp only [hs, Option.map_some', Option.some.injEq] at h
      subst h
      have hne : x.partition ≠ n := by
        rw [stateFields_partition hs]
        simpa [namesPartition, hc] using hl
      exact Map.get?_upsert_ne _ _ _ hne
  · simp only [hc] at h
    simp only [Bool.false_eq_true, if_false, Option.some.injEq] at h
    rw [h]

theorem partitionsStateLine_noJobs (pf : ParseFloatFn) (m m' : Map Str PartitionMetrics)
    (l : Str) (hm : ∀ e ∈ m, e.2.NoJobs) (h : partitionsStateLine pf m l = some m') :
    ∀ e ∈ m', e.2.NoJobs := by
  rw [partitionsStateLine_eq] at h
  split at h
  · cases hs : stateFields l with
    | none => simp [hs] at h
    | some x =>
      simp only [hs, Option.map_some', Option.some.injEq] at h
      subst h
      refine Map.all_set PartitionMetrics.NoJobs hm ?_
      cases hg : Map.get? m x.partition with
      | none => simp [PartitionMetrics.NoJobs, PartitionMetrics.setCpus, PartitionMetrics.zero]
      | some r =>
        have hr := hm _ (Map.mem_of_get? hg)
        simpa [PartitionMetrics.NoJobs, PartitionMetrics.setCpus] using hr
  · simp only [Option.some.injEq] at h
    subst h
    exact hm

theorem foldl_update_get?_other {V : Type} (f : V → V) (n : Str) (ls : List Str) (hn : n ∉ ls)
    (m : Map Str V) :
    Map.get? (ls.foldl (fun m p => Map.update m p f) m) n = Map.get? m n := by
  induction ls generalizing m with
  | nil => rfl
  | cons a ls ih =>
    simp only [List.mem_cons, not_or] at hn
    simp only [List.foldl_cons]
    rw [ih hn.2, Map.get?_update_ne _ _ (fun h => hn.1 h.symm)]

theorem foldlM_append_some {α β : Type} (step : β → α → Option β) (xs ys : List α) (b b' : β)
    (h : (xs ++ ys).foldlM step b = some b') :
    ∃ b1, xs.foldlM step b = some b1 ∧ ys.foldlM step b1 = some b' := by
  rw [List.foldlM_append] at h
  cases hx : xs.foldlM step b with
  | none => simp [hx] at h
  | some b1 =>
    simp only [hx, Option.bind_eq_bind, Option.some_bind] at h
    exact ⟨b1, rfl, h⟩

/-- C5 (amended): when every comma-carrying line of the partition-state text
has its four CPU positions, the last line naming `n` is `n,a/i/o/t` and no
line of the job texts equals `n`, the aggregation returns a mapping whose
record at `n` holds the values read from `a`, `i`, `o`, `t`, the total being
the fourth position as read, and zero job counters. -/
theorem partitions_record_of_state_line (pf : ParseFloatFn) (data running pending : Str)
    (n a i o t : Str) (pre post : List Str) (hn : ',' ∉ n)
    (ha : ',' ∉ a ∧ '/' ∉ a) (hi : ',' ∉ i ∧ '/' ∉ i) (ho : ',' ∉ o ∧ '/' ∉ o)
    (ht : ',' ∉ t ∧ '/' ∉ t)
    (hsplit : Split data '\n' = pre ++ stateLineOf n a i o t :: post)
    (hpost : ∀ l ∈ post, namesPartition l n = false)
    (hok : ∀ l ∈ Split data '\n', stateLineOk l = true)
    (hr : n ∉ Split running '\n') (hp : n ∉ Split pending '\n') :
    ∃ m, ParsePartitionsMetrics pf data running pending = some m
      ∧ Map.get? m n = some
          ⟨(pf a).1, (pf i).1, (pf o).1, Float64.fin 0, Float64.fin 0, Float64.fin 0, (pf t).1⟩ := by
  have hsome := ParsePartitionsMetrics_isSome pf data running pending
  rw [List.all_eq_true.mpr hok] at hsome
  obtain ⟨m, hm⟩ := Option.isSome_iff_exists.mp hsome
  refine ⟨m, hm, ?_⟩
  rw [ParsePartitionsMetrics_eq] at hm
  cases hs : (Split data '\n').foldlM (partitionsStateLine pf) [] with
  | none => simp [hs] at hm
  | some m0 =>
    simp only [hs, Option.map_some', Option.some.injEq] at hm
    subst hm
    rw [foldl_update_get?_other _ n _ hp, foldl_update_get?_other _ n _ hr]
    rw [hsplit] at hs
    obtain ⟨m1, h1, h2⟩ := foldlM_append_some _ _ _ _ _ hs
    simp only [List.foldlM_cons] at h2
    cases hl : partitionsStateLine pf m1 (stateLineOf n a i o t) with
    | none => simp [hl] at h2
    | some m2 =>
      simp only [hl, Option.bind_eq_bind, Option.some_bind] at h2
      have hpostI : ∀ (ls : List Str), (∀ l ∈ ls, namesPartition l n = false) →
          ∀ b b', ls.foldlM (partitionsStateLine pf) b = some b' →
            Map.get? b' n = Map.get? b n := by
        intro ls
        induction ls with
        | nil =>
          intro _ b b' hb
          simp only [List.foldlM_nil, Option.pure_def, Option.some.injEq] at hb
          rw [hb]
        | cons c cs ih =>
          intro hcs b b' hb
          simp only [List.foldlM_cons] at hb
          cases hc : partitionsStateLine pf b c with
          | none => simp [hc] at hb
          | some b1 =>
            simp only [hc, Option.bind_eq_bind, Option.some_bind] at hb
            rw [ih (fun l hl => hcs l (List.mem_cons_of_mem _ hl)) b1 b' hb]
            exact partitionsStateLine_get?_other pf b b1 c n (hcs c (List.mem_cons_self _ _)) hc
      rw [hpostI post hpost m2 m0 h2]
      have hnj : ∀ e ∈ m1, e.2.NoJobs :=
        foldlM_some_inv (fun m : Map Str PartitionMetrics => ∀ e ∈ m, e.2.NoJobs) _
          (fun b a b' hb hs => partitionsStateLine_noJobs pf b b' a hb hs) _ _ _ (by simp) h1
      rw [partitionsStateLine_eq, Contains_stateLineOf,
        stateFields_stateLineOf n a i o t hn ha hi ho ht] at hl
      simp only [if_true, Option.map_some', Option.some.injEq] at hl
      subst hl
      rw [Map.get?_upsert_self]
      cases hg : Map.get? m1 n with
      | none => simp [PartitionMetrics.setCpus, PartitionMetrics.zero]
      | some r =>
        have hj : r.NoJobs := hnj _ (Map.mem_of_get? hg)
        obtain ⟨j1, j2, j3⟩ := hj
        simp [PartitionMetrics.setCpus, j1, j2, j3]

theorem partitions_record_of_state_line_witness :
    (∃ m, ParsePartitionsMetrics ParseFloat "gpu,1/1/1/3\ncpu,2/2/0/4\ngpu,10/5/0/15\nnoise".toList
        "cpu\ncpu\n".toList "cpu\nhimem\n".toList = some m
      ∧ Map.get? m "gpu".toList = some
          ⟨(ParseFloat "10".toList).1, (ParseFloat "5".toList).1, (ParseFloat "0".toList).1,
            Float64.fin 0, Float64.fin 0, Float64.fin 0, (ParseFloat "15".toList).1⟩)
    ∧ ParsePartitionsMetrics ParseFloat "gpu,10/5/0/15".toList "".toList "".toList
        = some [("gpu".toList, ⟨.fin 10, .fin 5, .fin 0, .fin 0, .fin 0, .fin 0, .fin 15⟩)] :=
  ⟨partitions_record_of_state_line ParseFloat
    "gpu,1/1/1/3\ncpu,2/2/0/4\ngpu,10/5/0/15\nnoise".toList "cpu\ncpu\n".toList
    "cpu\nhimem\n".toList "gpu".toList "10".toList "5".toList "0".toList "15".toList
    ["gpu,1/1/1/3".toList, "cpu,2/2/0/4".toList] ["noise".toList]
    (by decide!) (by decide!) (by decide!) (by decide!) (by decide!) (by decide!) (by decide!)
    (by decide!) (by decide!) (by decide!), by decide!⟩

/-- C5, as stated, fails when another state line lacks a CPU position: on
the state text `x,1` followed by `gpu,10/5/0/15` the index `split_states[1]`
is out of range and no mapping is returned.  It also fails on a numeral beyond
the float64 range: the numeral of 1 followed by 309 zeros is read as +Inf. -/
theorem partitions_record_of_state_line_counterexample :
    Split "x,1\ngpu,10/5/0/15".toList '\n' = ["x,1".toList] ++ "gpu,10/5/0/15".toList :: []
    ∧ "gpu".toList ∉ Split "".toList '\n'
    ∧ ParsePartitionsMetrics ParseFloat "x,1\ngpu,10/5/0/15".toList "".toList "".toList = none
    ∧ ParsePartitionsMetrics ParseFloat
        (stateLineOf "gpu".toList ('1' :: List.replicate 309 '0') "5".toList "0".toList
          "15".toList) "".toList "".toList
      = some [("gpu".toList, ⟨.inf false, .fin 5, .fin 0, .fin 0, .fin 0, .fin 0, .fin 15⟩)] := by
  refine ⟨by decide!, by decide!, by decide!, by decide!⟩

/-! ## The keys of the partition mapping and the job lines of unknown partitions -/

theorem partitionsStateLine_keys (pf : ParseFloatFn) (m m' : Map Str PartitionMetrics) (l : Str)
    (h : partitionsStateLine pf m l = some m') (k : Str) :
    k ∈ Map.keys m' ↔ k ∈ Map.keys m ∨ namesPartition l k = true := by
  rw [partitionsStateLine_eq] at h
  by_cases hc : Contains l ',' = true
  · simp only [hc, if_true] at h
    cases hs : stateFields l with
    | none => simp [hs] at h
    | some x =>
      simp only [hs, Option.map_some', Option.some.injEq] at h
      subst h
      rw [Map.keys_upsert, stateFields_partition hs]
      by_cases hk : firstField l ',' ∈ Map.keys m
      · simp only [hk, if_true, namesPartition, hc, Bool.true_and, decide_eq_true_eq]
        constructor
        · exact Or.inl
        · rintro (h | h)
          · exact h
          · exact h ▸ hk
      · simp only [hk, if_false, List.mem_append, List.mem_singleton, namesPartition, hc,
          Bool.true_and, decide_eq_true_eq]
        constructor
        · rintro (h | h)
          · exact Or.inl h
          · exact Or.inr h.symm
        · rintro (h | h)
          · exact Or.inl h
          · exact Or.inr h.symm
  · simp only [hc] at h
    simp only [Bool.false_eq_true, if_false, Option.some.injEq] at h
    subst h
    simp [namesPartition, hc]

theorem foldlM_partitionsStateLine_keys (pf : ParseFloatFn) (ls : List Str) :
    ∀ (m m' : Map Str PartitionMetrics), ls.foldlM (partitionsStateLine pf) m = some m' →
      ∀ k, k ∈ Map.keys m' ↔ k ∈ Map.keys m ∨ ls.any (fun l => namesPartition l k) = true := by
  induction ls with
  | nil =>
    intro m m' h k
    simp only [List.foldlM_nil, Option.pure_def, Option.some.injEq] at h
    subst h
    simp
  | cons a ls ih =>
    intro m m' h k
    simp only [List.foldlM_cons] at h
    cases hs : partitionsStateLine pf m a with
    | none => simp [hs] at h
    | some m1 =>
      simp only [hs, Option.bind_eq_bind, Option.some_bind] at h
      rw [ih m1 m' h k, partitionsStateLine_keys pf m m1 a hs k]
      simp only [List.any_cons, Bool.or_eq_true]
      tauto

theorem foldl_update_filter {V : Type} (f : V → V) (known : Str → Bool) (ls : List Str) :
    ∀ (m : Map Str V), (∀ k, Map.contains m k = known k) →
      ls.foldl (fun m p => Map.update m p f) m
        = (ls.filter known).foldl (fun m p => Map.update m p f) m := by
  induction ls with
  | nil => intro m _; rfl
  | cons a ls ih =>
    intro m hm
    have hkeys : ∀ k, Map.contains (Map.update m a f) k = known k := by
      intro k
      rw [← hm k, Bool.eq_iff_iff, Map.contains_iff_mem_keys, Map.contains_iff_mem_keys,
        Map.keys_update]
    by_cases ha : known a = true
    · simp only [List.foldl_cons, List.filter_cons, ha, if_true]
      exact ih _ hkeys
    · simp only [Bool.not_eq_true] at ha
      have hu : Map.update m a f = m := Map.update_of_not_contains f (by rw [hm a, ha])
      simp only [List.foldl_cons, List.filter_cons, ha, hu, Bool.false_eq_true, if_false]
      exact ih m hm

/-- C6: the keys of the returned mapping are exactly the partition names of
the comma-carrying lines of the state text; whether the aggregation completes
depends on the state text alone; and the mapping depends on the job texts only
through their lines that name such a partition, so that a job line naming any
other partition creates no record and changes none. -/
theorem partitions_keys_and_unknown_jobs (pf : ParseFloatFn) (data running pending : Str) :
    (∀ m, ParsePartitionsMetrics pf data running pending = some m →
      ∀ k, k ∈ Map.keys m ↔ ∃ l ∈ Split data '\n', namesPartition l k = true)
    ∧ (ParsePartitionsMetrics pf data running pending).isSome
        = (ParsePartitionsMetrics pf data [] []).isSome
    ∧ (∀ running' pending',
        (Split running' '\n').filter (knownPartition data)
          = (Split running '\n').filter (knownPartition data) →
        (Split pending' '\n').filter (knownPartition data)
          = (Split pending '\n').filter (knownPartition data) →
        ParsePartitionsMetrics pf data running' pending'
          = ParsePartitionsMetrics pf data running pending) := by
  refine ⟨?_, ?_, ?_⟩
  · intro m hm k
    rw [ParsePartitionsMetrics_eq] at hm
    cases hs : (Split data '\n').foldlM (partitionsStateLine pf) [] with
    | none => simp [hs] at hm
    | some m0 =>
      simp only [hs, Option.map_some', Option.some.injEq] at hm
      subst hm
      rw [keys_foldl_update, keys_foldl_update, foldlM_partitionsStateLine_keys pf _ _ _ hs k]
      simp [Map.keys]
  · rw [ParsePartitionsMetrics_isSome, ParsePartitionsMetrics_isSome]
  · intro running' pending' hr hp
    rw [ParsePartitionsMetrics_eq, ParsePartitionsMetrics_eq]
    cases hs : (Split data '\n').foldlM (partitionsStateLine pf) [] with
    | none => rfl
    | some m0 =>
      simp only [Option.map_some', Option.some.injEq]
      have h0 : ∀ k, Map.contains m0 k = knownPartition data k := by
        intro k
        rw [Bool.eq_iff_iff, Map.contains_iff_mem_keys,
          foldlM_partitionsStateLine_keys pf _ _ _ hs k]
        simp [Map.keys, knownPartition]
      have h1 : ∀ (ls : List Str) k, Map.contains
          (ls.foldl (fun m p => Map.update m p PartitionMetrics.addRunning) m0) k
            = knownPartition data k := by
        intro ls k
        rw [← h0 k, Bool.eq_iff_iff, Map.contains_iff_mem_keys, Map.contains_iff_mem_keys,
          keys_foldl_update]
      rw [foldl_update_filter _ (knownPartition data) (Split running' '\n') m0 h0,
        foldl_update_filter _ (knownPartition data) (Split running '\n') m0 h0, hr,
        foldl_update_filter _ (knownPartition data) (Split pending' '\n') _ (h1 _),
        foldl_update_filter _ (knownPartition data) (Split pending '\n') _ (h1 _), hp]

theorem partitions_keys_and_unknown_jobs_witness :
    (∀ k, k ∈ Map.keys [("gpu".toList,
            (⟨.fin 10, .fin 5, .fin 0, .fin 1, .fin 1, .fin 2, .fin 15⟩ : PartitionMetrics)),
          ("cpu".toList, ⟨.fin 0, .fin 8, .fin 0, .fin 0, .fin 0, .fin 0, .fin 8⟩)]
        ↔ ∃ l ∈ Split "gpu,10/5/0/15\nnoise\ncpu,0/8/0/8".toList '\n', namesPartition l k = true)
    ∧ ParsePartitionsMetrics ParseFloat "gpu,10/5/0/15\nnoise\ncpu,0/8/0/8".toList
          "gpu".toList "gpu".toList
        = ParsePartitionsMetrics ParseFloat "gpu,10/5/0/15\nnoise\ncpu,0/8/0/8".toList
          "himem\ngpu\nhimem".toList "gpu\ndebug\n".toList :=
  ⟨(partitions_keys_and_unknown_jobs ParseFloat "gpu,10/5/0/15\nnoise\ncpu,0/8/0/8".toList
      "himem\ngpu\nhimem".toList "gpu\ndebug\n".toList).1 _ (by decide!),
    (partitions_keys_and_unknown_jobs ParseFloat "gpu,10/5/0/15\nnoise\ncpu,0/8/0/8".toList
      "himem\ngpu\nhimem".toList "gpu\ndebug\n".toList).2.2 "gpu".toList "gpu".toList
      (by decide!) (by decide!)⟩

/-! ## Lines with too few fields -/

/-- C7 (the code at the failing input): on the state line `gpu,10/5` the
index `split_states[2]` is out of range and `ParsePartitionsMetrics` panics,
whatever `strconv.ParseFloat` returns, whereas the text without that line
gives a mapping. -/
theorem partitions_short_state_line_panics :
    (∀ pf : ParseFloatFn, ParsePartitionsMetrics pf "gpu,10/5".toList [] [] = none)
    ∧ (∀ pf : ParseFloatFn,
        ParsePartitionsMetrics pf "cpu,1/2/3/6\ngpu,10/5".toList "cpu".toList [] = none)
    ∧ ParsePartitionsMetrics ParseFloat "cpu,1/2/3/6".toList "cpu".toList []
        = some [("cpu".toList, ⟨.fin 1, .fin 2, .fin 3, .fin 1, .fin 0, .fin 1, .fin 6⟩)]
    ∧ ParsePartitionsMetrics ParseFloat "".toList [] [] = some [] := by
  refine ⟨?_, ?_, by decide!, by decide!⟩
  · intro pf
    have h := ParsePartitionsMetrics_isSome pf "gpu,10/5".toList [] []
    have h2 : (Split "gpu,10/5".toList '\n').all stateLineOk = false := by decide!
    rw [h2] at h
    cases hp : ParsePartitionsMetrics pf "gpu,10/5".toList [] [] with
    | none => rfl
    | some m =>
      rw [hp] at h
      simp at h
  · intro pf
    have h := ParsePartitionsMetrics_isSome pf "cpu,1/2/3/6\ngpu,10/5".toList "cpu".toList []
    have h2 : (Split "cpu,1/2/3/6\ngpu,10/5".toList '\n').all stateLineOk = false := by decide!
    rw [h2] at h
    cases hp : ParsePartitionsMetrics pf "cpu,1/2/3/6\ngpu,10/5".toList "cpu".toList [] with
    | none => rfl
    | some m =>
      rw [hp] at h
      simp at h

theorem fairShareLine_isSome (pf : ParseFloatFn) (m : Map UserAccount FairShareMetrics)
    (l : Str) : (fairShareLine pf m l).isSome = fairShareLineOk l := by
  rw [fairShareLine_eq]
  unfold fairShareLineOk
  by_cases hc : fairShareRead l = true
  · simp [hc]
  · simp [hc]

theorem ParseFairShareMetrics_isSome (pf : ParseFloatFn) (data : Str) :
    (ParseFairShareMetrics pf data).isSome = (Split data '\n').all fairShareLineOk :=
  foldlM_isSome _ _ (fairShareLine_isSome pf) _ _

/-- C8 (the code at the failing input): on the fair-share line `alice|teamA`
the index `items[2]` is out of range and `ParseFairShareMetrics` panics,
whatever `strconv.ParseFloat` returns, whereas the text without that line
gives a mapping. -/
theorem fairshare_short_line_panics :
    (∀ pf : ParseFloatFn, ParseFairShareMetrics pf "alice|teamA".toList = none)
    ∧ (∀ pf : ParseFloatFn,
        ParseFairShareMetrics pf "bob|teamB|0.25\nalice|teamA\n".toList = none)
    ∧ ParseFairShareMetrics ParseFloat "bob|teamB|0.25\n".toList
        = some [(⟨"bob".toList, "teamB".toList⟩, ⟨.fin (1 / 4)⟩)]
    ∧ ParseFairShareMetrics ParseFloat "".toList = some [] := by
  refine ⟨?_, ?_, by decide!, by decide!⟩
  · intro pf
    have h := ParseFairShareMetrics_isSome pf "alice|teamA".toList
    have h2 : (Split "alice|teamA".toList '\n').all fairShareLineOk = false := by decide!
    rw [h2] at h
    cases hp : ParseFairShareMetrics pf "alice|teamA".toList with
    | none => rfl
    | some m =>
      rw [hp] at h
      simp at h
  · intro pf
    have h := ParseFairShareMetrics_isSome pf "bob|teamB|0.25\nalice|teamA\n".toList
    have h2 : (Split "bob|teamB|0.25\nalice|teamA\n".toList '\n').all fairShareLineOk = false := by
      decide!
    rw [h2] at h
    cases hp : ParseFairShareMetrics pf "bob|teamB|0.25\nalice|teamA\n".toList with
    | none => rfl
    | some m =>
      rw [hp] at h
      simp at h

/-! ## Numeric fields that fail to parse -/

theorem setCpus_congr (pf pf' : ParseFloatFn) (hv : ∀ s, (pf s).1 = (pf' s).1) :
    PartitionMetrics.setCpus pf = PartitionMetrics.setCpus pf' := by
  funext x r
  simp [PartitionMetrics.setCpus, hv]

theorem partitionsStateLine_congr (pf pf' : ParseFloatFn) (hv : ∀ s, (pf s).1 = (pf' s).1) :
    partitionsStateLine pf = partitionsStateLine pf' := by
  funext m l
  rw [partitionsStateLine_eq, partitionsStateLine_eq, setCpus_congr pf pf' hv]

theorem qosRunningStep_congr (pf pf' : ParseFloatFn) (hv : ∀ s, (pf s).1 = (pf' s).1) :
    qosRunningStep pf = qosRunningStep pf' := by
  funext m l
  simp [qosRunningStep, hv]

theorem fairShareLine_congr (pf pf' : ParseFloatFn) (hv : ∀ s, (pf s).1 = (pf' s).1) :
    fairShareLine pf = fairShareLine pf' := by
  funext m l
  rw [fairShareLine_eq, fairShareLine_eq]
  simp [hv]

/-- C9 (amended): the three parsers discard the error of `strconv.ParseFloat`
and store the value it returns: they return what they would return if no
error were ever reported, whether they complete does not depend on the
numeric fields, and the field read from a string is the value returned for
that string.  For the library that value is zero unless the string is a
well-formed number out of range, in which case it is the infinity of its
sign. -/
theorem parse_error_value_is_used (pf : ParseFloatFn) :
    (∀ d r p, ParsePartitionsMetrics pf d r p
        = ParsePartitionsMetrics (fun s => ((pf s).1, false)) d r p)
    ∧ (∀ r p, ParseQosMetrics pf r p = ParseQosMetrics (fun s => ((pf s).1, false)) r p)
    ∧ (∀ d, ParseFairShareMetrics pf d = ParseFairShareMetrics (fun s => ((pf s).1, false)) d)
    ∧ (∀ (pf' : ParseFloatFn) d r p,
        (ParsePartitionsMetrics pf d r p).isSome = (ParsePartitionsMetrics pf' d r p).isSome)
    ∧ (∀ r p, (ParseQosMetrics pf r p).isSome = true)
    ∧ (∀ (pf' : ParseFloatFn) d,
        (ParseFairShareMetrics pf d).isSome = (ParseFairShareMetrics pf' d).isSome)
    ∧ (∀ m l x, Contains l ',' = true → stateFields l = some x →
        ∃ m' r, partitionsStateLine pf m l = some m' ∧ Map.get? m' x.partition = some r
          ∧ r.cpus_allocated = (pf x.allocated).1 ∧ r.cpus_idle = (pf x.idle).1
          ∧ r.cpus_other = (pf x.other).1 ∧ r.cpus_total = (pf x.total).1)
    ∧ (∀ m l, qosCounted l = true →
        ∃ m' r, qosRunningLine pf m l = some m' ∧ Map.get? m' (firstField l ',') = some r
          ∧ r.cpus_allocated
            = Float64.add ((Map.get? m (firstField l ',')).getD QosMetrics.zero).cpus_allocated
                (pf (secondField l ',')).1)
    ∧ (∀ m l v, fairShareRead l = true → thirdField? l '|' = some v →
        ∃ m', fairShareLine pf m l = some m'
          ∧ Map.get? m' (fairShareKey l) = some ⟨(pf v).1⟩)
    ∧ (∀ s, (ParseFloat s).2 = true →
        (ParseFloat s).1 = Float64.fin 0
          ∨ ∃ neg q, readFloat s = some (neg, q) ∧ (ParseFloat s).1 = Float64.inf neg) := by
  have hv : ∀ s, (pf s).1 = ((fun s => ((pf s).1, false)) s : Float64 × Bool).1 := fun _ => rfl
  refine ⟨?_, ?_, ?_, ?_, ?_, ?_, ?_, ?_, ?_, ?_⟩
  · intro d r p
    unfold ParsePartitionsMetrics
    rw [partitionsStateLine_congr pf _ hv]
  · intro r p
    rw [ParseQosMetrics_eq, ParseQosMetrics_eq, qosRunningStep_congr pf _ hv]
  · intro d
    unfold ParseFairShareMetrics
    rw [fairShareLine_congr pf _ hv]
  · intro pf' d r p
    rw [ParsePartitionsMetrics_isSome, ParsePartitionsMetrics_isSome]
  · intro r p
    rw [ParseQosMetrics_eq]
    rfl
  · intro pf' d
    rw [ParseFairShareMetrics_isSome, ParseFairShareMetrics_isSome]
  · intro m l x hc hx
    refine ⟨_, _, ?_, Map.get?_upsert_self m x.partition PartitionMetrics.zero
      (PartitionMetrics.setCpus pf x), rfl, rfl, rfl, rfl⟩
    rw [partitionsStateLine_eq]
    simp [hc, hx]
  · intro m l hl
    refine ⟨_, _, ?_, Map.get?_upsert_self m (firstField l ',') QosMetrics.zero
      (QosMetrics.addRunning (pf (secondField l ',')).1), rfl⟩
    rw [qosRunningLine_eq]
    simp [qosRunningStep, hl]
  · intro m l v hl hv3
    refine ⟨_, ?_, Map.get?_set_self m (fairShareKey l) ⟨(pf v).1⟩⟩
    rw [fairShareLine_eq]
    simp [hl, hv3]
  · intro s h
    unfold ParseFloat at h ⊢
    cases hsp : special s with
    | some v => simp [hsp] at h
    | none =>
      simp only [hsp] at h ⊢
      cases hr : readFloat s with
      | none => simp
      | some x =>
        obtain ⟨neg, q⟩ := x
        simp only [hr] at h ⊢
        split
        · exact Or.inr ⟨neg, q, rfl, rfl⟩
        · rename_i hq
          simp only [hq, if_false] at h
          split at h <;> simp at h

theorem parse_error_value_is_used_witness :
    (∃ m' r, partitionsStateLine ParseFloat [] "gpu,abc/5/1e999/15".toList = some m'
        ∧ Map.get? m' "gpu".toList = some r
        ∧ r.cpus_allocated = (ParseFloat "abc".toList).1 ∧ r.cpus_idle = (ParseFloat "5".toList).1
        ∧ r.cpus_other = (ParseFloat "1e999".toList).1
        ∧ r.cpus_total = (ParseFloat "15".toList).1)
    ∧ ((ParseFloat "abc".toList).1 = Float64.fin 0
        ∨ ∃ neg q, readFloat "abc".toList = some (neg, q)
          ∧ (ParseFloat "abc".toList).1 = Float64.inf neg)
    ∧ ParsePartitionsMetrics ParseFloat "gpu,abc/5/x/15".toList [] []
        = some [("gpu".toList, ⟨.fin 0, .fin 5, .fin 0, .fin 0, .fin 0, .fin 0, .fin 15⟩)] :=
  ⟨(parse_error_value_is_used ParseFloat).2.2.2.2.2.2.1 [] "gpu,abc/5/1e999/15".toList
      ⟨"gpu".toList, "abc".toList, "5".toList, "1e999".toList, "15".toList⟩
      (by decide!) (by decide!),
    (parse_error_value_is_used ParseFloat).2.2.2.2.2.2.2.2.2 "abc".toList (by decide!),
    by decide!⟩

/-- C9, as stated, fails on a number out of range: `strconv.ParseFloat`
reports an error on `1e999` and returns +Inf, and the three parsers store the
infinity, not zero. -/
theorem parse_error_value_is_used_counterexample :
    (ParseFloat "1e999".toList).2 = true ∧ (ParseFloat "-1e999".toList).2 = true
    ∧ ParsePartitionsMetrics ParseFloat "gpu,1e999/5/0/15".toList [] []
        = some [("gpu".toList,
            ⟨.inf false, .fin 5, .fin 0, .fin 0, .fin 0, .fin 0, .fin 15⟩)]
    ∧ ParseQosMetrics ParseFloat "normal,1e999".toList []
        = some [("normal".toList, ⟨.inf false, .fin 1, .fin 0, .fin 1⟩)]
    ∧ ParseFairShareMetrics ParseFloat "alice|teamA|-1e999".toList
        = some [(⟨"alice".toList, "teamA".toList⟩, ⟨.inf true⟩)]
    ∧ Float64.inf false ≠ Float64.fin 0 ∧ Float64.inf true ≠ Float64.fin 0 := by
  refine ⟨by decide!, by decide!, by decide!, by decide!, by decide!, by decide, by decide⟩

/-! ## Texts and their lines -/

theorem Split_joinLines (ls : List Str) (hne : ls ≠ []) (hnl : ∀ l ∈ ls, '\n' ∉ l) :
    Split (joinLines ls) '\n' = ls := by
  induction ls with
  | nil => exact absurd rfl hne
  | cons l ls ih =>
    cases ls with
    | nil => exact Split_of_not_mem _ _ (hnl l (List.mem_cons_self _ _))
    | cons l' ls =>
      simp only [joinLines]
      rw [Split_append _ _ _ (hnl l (List.mem_cons_self _ _)),
        ih (by simp) (fun x hx => hnl x (List.mem_cons_of_mem _ hx))]

theorem Split_joinLines_nil : Split (joinLines []) '\n' = [[]] := rfl

theorem splitAux_not_mem (sep : Char) (s : Str) :
    sep ∉ (splitAux sep s).1 ∧ ∀ l ∈ (splitAux sep s).2, sep ∉ l := by
  induction s with
  | nil => simp [splitAux]
  | cons c cs ih =>
    by_cases hc : c = sep
    · simp only [splitAux, hc, if_true, List.mem_cons]
      refine ⟨by simp, ?_⟩
      rintro l (h | h)
      · exact h ▸ ih.1
      · exact ih.2 l h
    · simp only [splitAux, hc, if_false, List.mem_cons, not_or]
      exact ⟨⟨fun h => hc h.symm, ih.1⟩, ih.2⟩

theorem Split_not_mem (sep : Char) (s : Str) : ∀ l ∈ Split s sep, sep ∉ l := by
  intro l hl
  simp only [Split, List.mem_cons] at hl
  rcases hl with h | h
  · exact h ▸ (splitAux_not_mem sep s).1
  · exact (splitAux_not_mem sep s).2 l h

theorem joinLines_Split (s : Str) : joinLines (Split s '\n') = s := by
  induction s with
  | nil => rfl
  | cons c cs ih =>
    by_cases hc : c = '\n'
    · simp only [Split, splitAux, hc, if_true, joinLines]
      simp only [Split] at ih
      rw [ih]
      rfl
    · simp only [Split, splitAux, hc, if_false]
      simp only [Split] at ih
      cases hs : (splitAux '\n' cs).2 with
      | nil =>
        rw [hs] at ih
        simp only [joinLines] at ih ⊢
        rw [ih]
      | cons a as =>
        rw [hs] at ih
        simp only [joinLines] at ih ⊢
        exact congrArg (List.cons c) ih

/-! ## QoS lines with an empty name -/

theorem foldl_skip {α β : Type} (g : β → α → β) (l : α) (hl : ∀ b, g b l = b)
    (pre post : List α) (b : β) :
    (pre ++ l :: post).foldl g b = (pre ++ post).foldl g b := by
  simp [List.foldl_append, hl]

theorem qosRunningStep_no_empty_key (pf : ParseFloatFn) (m : Map Str QosMetrics) (l : Str)
    (hm : [] ∉ Map.keys m) : [] ∉ Map.keys (qosRunningStep pf m l) := by
  unfold qosRunningStep
  split
  · rename_i hc
    simp only [qosCounted, Bool.and_eq_true, decide_eq_true_eq] at hc
    rw [Map.keys_upsert]
    split
    · exact hm
    · simp only [List.mem_append, List.mem_singleton, not_or]
      exact ⟨hm, fun h => hc.2 h.symm⟩
  · exact hm

theorem qosPendingStep_no_empty_key (m : Map Str QosMetrics) (l : Str)
    (hm : [] ∉ Map.keys m) : [] ∉ Map.keys (qosPendingStep m l) := by
  unfold qosPendingStep
  split
  · exact hm
  · rename_i hc
    rw [Map.keys_upsert]
    split
    · exact hm
    · simp only [List.mem_append, List.mem_singleton, not_or]
      exact ⟨hm, fun h => hc h.symm⟩

theorem foldl_no_empty_key {α : Type} (g : Map Str QosMetrics → α → Map Str QosMetrics)
    (hg : ∀ m a, [] ∉ Map.keys m → [] ∉ Map.keys (g m a)) (ls : List α)
    (m : Map Str QosMetrics) (hm : [] ∉ Map.keys m) : [] ∉ Map.keys (ls.foldl g m) := by
  induction ls generalizing m with
  | nil => exact hm
  | cons a ls ih => exact ih _ (hg m a hm)

/-- C10: `ParseQosMetrics` returns a mapping without a record keyed by the
empty string, and a running-job line whose QoS field is empty contributes
nothing: the text without that line gives the same mapping. -/
theorem qos_empty_name_excluded (pf : ParseFloatFn) (pending : Str) :
    (∀ running, ∃ m, ParseQosMetrics pf running pending = some m
      ∧ [] ∉ Map.keys m ∧ Map.get? m [] = none)
    ∧ (∀ (pre post : List Str) (l : Str), (∀ x ∈ pre ++ l :: post, '\n' ∉ x) →
        firstField l ',' = [] →
        ParseQosMetrics pf (joinLines (pre ++ l :: post)) pending
          = ParseQosMetrics pf (joinLines (pre ++ post)) pending) := by
  constructor
  · intro running
    refine ⟨_, ParseQosMetrics_eq pf running pending, ?_⟩
    have hk : [] ∉ Map.keys ((Split pending '\n').foldl qosPendingStep
        ((Split running '\n').foldl (qosRunningStep pf) [])) :=
      foldl_no_empty_key _ qosPendingStep_no_empty_key _ _
        (foldl_no_empty_key _ (qosRunningStep_no_empty_key pf) _ _ (by simp [Map.keys]))
    refine ⟨hk, ?_⟩
    cases hg : Map.get? ((Split pending '\n').foldl qosPendingStep
        ((Split running '\n').foldl (qosRunningStep pf) [])) [] with
    | none => rfl
    | some v => exact absurd ((Map.mem_keys_iff _ _).mpr ⟨v, hg⟩) hk
  · intro pre post l hnl hl
    have hstep : ∀ b, qosRunningStep pf b l = b := by
      intro b
      simp [qosRunningStep, qosCounted, hl]
    rw [ParseQosMetrics_eq, ParseQosMetrics_eq, Split_joinLines _ (by simp) hnl,
      foldl_skip _ l hstep]
    by_cases hne : pre ++ post = []
    · have hempty : ∀ b, qosRunningStep pf b [] = b := by
        intro b
        simp [qosRunningStep, qosCounted, Contains]
      rw [hne, Split_joinLines_nil]
      simp [hempty]
    · rw [Split_joinLines _ hne (fun x hx => hnl x (by
        rcases List.mem_append.mp hx with h | h
        · exact List.mem_append_left _ h
        · exact List.mem_append_right _ (List.mem_cons_of_mem _ h)))]

theorem qos_empty_name_excluded_witness :
    ParseQosMetrics ParseFloat
        (joinLines (["normal,4".toList] ++ ",4".toList :: ["normal,2".toList])) "low".toList
      = ParseQosMetrics ParseFloat (joinLines (["normal,4".toList] ++ ["normal,2".toList]))
        "low".toList
    ∧ ParseQosMetrics ParseFloat ",4".toList [] = some [] :=
  ⟨(qos_empty_name_excluded ParseFloat "low".toList).2 ["normal,4".toList] ["normal,2".toList]
      ",4".toList (by decide!) (by decide!),
    by decide!⟩

/-! ## The records of the QoS mapping -/

theorem foldl_some_getD {α β : Type} (h : β → α → β) (z : β) (xs : List α) (o : Option β) :
    xs.foldl (fun o x => some (h (o.getD z) x)) o
      = if xs.isEmpty = true then o else some (xs.foldl h (o.getD z)) := by
  induction xs generalizing o with
  | nil => rfl
  | cons x xs ih =>
    simp only [List.foldl_cons, ih]
    cases xs with
    | nil => simp
    | cons y ys => simp

theorem get?_qosRunningStep (pf : ParseFloatFn) (m : Map Str QosMetrics) (l q : Str) :
    Map.get? (qosRunningStep pf m l) q =
      if qosNames l q = true then
        some (QosMetrics.addRunning (pf (secondField l ',')).1 ((Map.get? m q).getD QosMetrics.zero))
      else Map.get? m q := by
  unfold qosRunningStep qosNames
  by_cases hc : qosCounted l = true
  · by_cases hq : firstField l ',' = q
    · subst hq
      simp [hc, Map.get?_upsert_self]
    · simp [hc, hq, Map.get?_upsert_ne _ _ _ hq]
  · simp [hc]

theorem get?_foldl_qosRunningStep (pf : ParseFloatFn) (lines : List Str) (q : Str) :
    ∀ m : Map Str QosMetrics, Map.get? (lines.foldl (qosRunningStep pf) m) q =
      (qosCpus pf lines q).foldl
        (fun o c => some (QosMetrics.addRunning c (o.getD QosMetrics.zero))) (Map.get? m q) := by
  induction lines with
  | nil => intro m; rfl
  | cons l ls ih =>
    intro m
    simp only [List.foldl_cons, ih, get?_qosRunningStep]
    by_cases hn : qosNames l q = true
    · simp [qosCpus, List.filter_cons, hn]
    · simp [qosCpus, List.filter_cons, hn]

theorem get?_qosPendingStep (m : Map Str QosMetrics) (l q : Str) (hq : q ≠ []) :
    Map.get? (qosPendingStep m l) q =
      if l = q then some (QosMetrics.addPending ((Map.get? m q).getD QosMetrics.zero))
      else Map.get? m q := by
  unfold qosPendingStep
  by_cases hl : l = q
  · subst hl
    simp [hq, Map.get?_upsert_self]
  · by_cases he : l = []
    · subst he
      have hq' : ¬ [] = q := fun e => hq e.symm
      simp [hq']
    · simp [he, hl, Map.get?_upsert_ne _ _ _ hl]

theorem get?_foldl_qosPendingStep (lines : List Str) (q : Str) (hq : q ≠ []) :
    ∀ m : Map Str QosMetrics, Map.get? (lines.foldl qosPendingStep m) q =
      (lines.filter (fun l => decide (l = q))).foldl
        (fun o _ => some (QosMetrics.addPending (o.getD QosMetrics.zero))) (Map.get? m q) := by
  induction lines with
  | nil => intro m; rfl
  | cons l ls ih =>
    intro m
    simp only [List.foldl_cons, ih, get?_qosPendingStep _ _ _ hq]
    by_cases hn : l = q
    · simp [List.filter_cons, hn]
    · simp [List.filter_cons, hn]

theorem foldl_addRunning (cs : List Float64) :
    ∀ (x : Float64) (a b t : ℚ),
      cs.foldl (fun r c => QosMetrics.addRunning c r)
          ⟨x, Float64.fin a, Float64.fin b, Float64.fin t⟩
        = ⟨cs.foldl Float64.add x, Float64.fin (a + cs.length), Float64.fin b,
            Float64.fin (t + cs.length)⟩ := by
  induction cs with
  | nil => intro x a b t; simp
  | cons c cs ih =>
    intro x a b t
    have e : ∀ y : ℚ, y + 1 + (cs.length : ℚ) = y + ((cs.length + 1 : ℕ) : ℚ) := by
      intro y
      push_cast
      ring
    have hstep : QosMetrics.addRunning c ⟨x, Float64.fin a, Float64.fin b, Float64.fin t⟩
        = ⟨Float64.add x c, Float64.fin (a + 1), Float64.fin b, Float64.fin (t + 1)⟩ := rfl
    rw [List.foldl_cons, hstep, ih, List.foldl_cons, List.length_cons, e, e]

theorem foldl_addPending {α : Type} (xs : List α) :
    ∀ (x : Float64) (a b t : ℚ),
      xs.foldl (fun r _ => QosMetrics.addPending r)
          ⟨x, Float64.fin a, Float64.fin b, Float64.fin t⟩
        = ⟨x, Float64.fin a, Float64.fin (b + xs.length), Float64.fin (t + xs.length)⟩ := by
  induction xs with
  | nil => intro x a b t; simp
  | cons c cs ih =>
    intro x a b t
    have e : ∀ y : ℚ, y + 1 + (cs.length : ℚ) = y + ((cs.length + 1 : ℕ) : ℚ) := by
      intro y
      push_cast
      ring
    have hstep : QosMetrics.addPending ⟨x, Float64.fin a, Float64.fin b, Float64.fin t⟩
        = ⟨x, Float64.fin a, Float64.fin (b + 1), Float64.fin (t + 1)⟩ := rfl
    rw [List.foldl_cons, hstep, ih, List.length_cons, e, e]

/-- The record of the QoS `q` in the mapping `ParseQosMetrics` returns. -/
theorem ParseQosMetrics_get? (pf : ParseFloatFn) (running pending q : Str) (hq : q ≠ [])
    (m : Map Str QosMetrics) (h : ParseQosMetrics pf running pending = some m) :
    Map.get? m q =
      if qosCpus pf (Split running '\n') q = [] ∧ (Split pending '\n').count q = 0 then none
      else some (qosRecord (qosCpus pf (Split running '\n') q) ((Split pending '\n').count q)) := by
  rw [ParseQosMetrics_eq] at h
  simp only [Option.some.injEq] at h
  subst h
  rw [get?_foldl_qosPendingStep _ _ hq, get?_foldl_qosRunningStep]
  simp only [Map.get?]
  have hcount : (Split pending '\n').count q
      = ((Split pending '\n').filter (fun l => decide (l = q))).length := by
    rw [List.count, List.countP_eq_length_filter]
    congr 1
    apply List.filter_congr
    intro x _
    by_cases hx : x = q
    · simp [hx]
    · have hx' : ¬ q = x := fun e => hx e.symm
      simp [hx, hx']
  rw [hcount]
  generalize qosCpus pf (Split running '\n') q = cs
  generalize (Split pending '\n').filter (fun l => decide (l = q)) = ps
  rw [foldl_some_getD (fun r c => QosMetrics.addRunning c r) QosMetrics.zero cs none,
    foldl_some_getD (fun r (_ : Str) => QosMetrics.addPending r) QosMetrics.zero ps]
  have hz : QosMetrics.zero = ⟨Float64.fin 0, Float64.fin (0 : ℚ), Float64.fin (0 : ℚ),
      Float64.fin (0 : ℚ)⟩ := rfl
  cases cs with
  | nil =>
    cases ps with
    | nil => simp
    | cons p ps =>
      simp only [List.isEmpty_nil, List.isEmpty_cons, if_true, Option.getD_none, hz,
        foldl_addPending, Bool.false_eq_true, if_false]
      simp [qosRecord, Float64.sum]
  | cons c cs =>
    cases ps with
    | nil =>
      simp only [List.isEmpty_nil, List.isEmpty_cons, if_true, Option.getD_none, hz,
        foldl_addRunning, Bool.false_eq_true, if_false]
      simp [qosRecord, Float64.sum]
    | cons p ps =>
      simp only [List.isEmpty_cons, Option.getD_none, Option.getD_some, hz,
        foldl_addRunning, foldl_addPending, Bool.false_eq_true, if_false]
      simp [qosRecord, Float64.sum]

/-! ## The record of a QoS, the float64 addition left open -/

theorem qosRunningLineWith_add (pf : ParseFloatFn) :
    qosRunningLineWith Float64.add pf = qosRunningLine pf := rfl

theorem ParseQosMetricsWith_add (pf : ParseFloatFn) (running pending : Str) :
    ParseQosMetricsWith Float64.add pf running pending = ParseQosMetrics pf running pending := rfl

theorem qosRunningLineWith_eq (fadd : Float64 → Float64 → Float64) (pf : ParseFloatFn)
    (m : Map Str QosMetrics) (line : Str) :
    qosRunningLineWith fadd pf m line = some (qosRunningStepWith fadd pf m line) := by
  unfold qosRunningLineWith qosRunningStepWith qosCounted
  by_cases hc : Contains line ',' = true
  · simp only [hc, if_true, Option.bind_eq_bind, Split_zero, Split_one _ _ hc, Option.some_bind,
      Map.ensure_eq_set, Map.modify?_set, Bool.true_and]
    by_cases hq : firstField line ',' = []
    · simp [hq]
    · simp only [hq, if_false, decide_not, decide_False, Bool.not_false, if_true]
      rfl
  · simp [hc]

theorem ParseQosMetricsWith_eq (fadd : Float64 → Float64 → Float64) (pf : ParseFloatFn)
    (running pending : Str) :
    ParseQosMetricsWith fadd pf running pending =
      some ((Split pending '\n').foldl qosPendingStep
        ((Split running '\n').foldl (qosRunningStepWith fadd pf) [])) := by
  unfold ParseQosMetricsWith
  rw [foldlM_eq_foldl _ _ (qosRunningLineWith_eq fadd pf)]
  simp only [Option.bind_eq_bind, Option.some_bind]
  rw [foldlM_eq_foldl _ _ qosPendingLine_eq]

theorem get?_qosRunningStepWith (fadd : Float64 → Float64 → Float64) (pf : ParseFloatFn)
    (m : Map Str QosMetrics) (l q : Str) :
    Map.get? (qosRunningStepWith fadd pf m l) q =
      if qosNames l q = true then
        some (QosMetrics.addRunningWith fadd (pf (secondField l ',')).1
          ((Map.get? m q).getD QosMetrics.zero))
      else Map.get? m q := by
  unfold qosRunningStepWith qosNames
  by_cases hc : qosCounted l = true
  · by_cases hq : firstField l ',' = q
    · subst hq
      simp [hc, Map.get?_upsert_self]
    · simp [hc, hq, Map.get?_upsert_ne _ _ _ hq]
  · simp [hc]

theorem get?_foldl_qosRunningStepWith (fadd : Float64 → Float64 → Float64) (pf : ParseFloatFn)
    (lines : List Str) (q : Str) :
    ∀ m : Map Str QosMetrics, Map.get? (lines.foldl (qosRunningStepWith fadd pf) m) q =
      (qosCpus pf lines q).foldl
        (fun o c => some (QosMetrics.addRunningWith fadd c (o.getD QosMetrics.zero)))
        (Map.get? m q) := by
  induction lines with
  | nil => intro m; rfl
  | cons l ls ih =>
    intro m
    simp only [List.foldl_cons, ih, get?_qosRunningStepWith]
    by_cases hn : qosNames l q = true
    · simp [qosCpus, List.filter_cons, hn]
    · simp [qosCpus, List.filter_cons, hn]

theorem foldl_addRunningWith (fadd : Float64 → Float64 → Float64) (cs : List Float64) :
    ∀ (x : Float64) (a b t : ℚ),
      cs.foldl (fun r c => QosMetrics.addRunningWith fadd c r)
          ⟨x, Float64.fin a, Float64.fin b, Float64.fin t⟩
        = ⟨cs.foldl fadd x, Float64.fin (a + cs.length), Float64.fin b,
            Float64.fin (t + cs.length)⟩ := by
  induction cs with
  | nil => intro x a b t; simp
  | cons c cs ih =>
    intro x a b t
    have e : ∀ y : ℚ, y + 1 + (cs.length : ℚ) = y + ((cs.length + 1 : ℕ) : ℚ) := by
      intro y
      push_cast
      ring
    have hstep : QosMetrics.addRunningWith fadd c
          ⟨x, Float64.fin a, Float64.fin b, Float64.fin t⟩
        = ⟨fadd x c, Float64.fin (a + 1), Float64.fin b, Float64.fin (t + 1)⟩ := rfl
    rw [List.foldl_cons, hstep, ih, List.foldl_cons, List.length_cons, e, e]

/-- The record of the QoS `q` in the mapping `ParseQosMetricsWith` returns. -/
theorem ParseQosMetricsWith_get? (fadd : Float64 → Float64 → Float64) (pf : ParseFloatFn)
    (running pending q : Str) (hq : q ≠ []) (m : Map Str QosMetrics)
    (h : ParseQosMetricsWith fadd pf running pending = some m) :
    Map.get? m q =
      if qosCpus pf (Split running '\n') q = [] ∧ (Split pending '\n').count q = 0 then none
      else some ⟨(qosCpus pf (Split running '\n') q).foldl fadd (Float64.fin 0),
        Float64.fin (qosCpus pf (Split running '\n') q).length,
        Float64.fin ((Split pending '\n').count q),
        Float64.fin ((qosCpus pf (Split running '\n') q).length
          + (Split pending '\n').count q)⟩ := by
  rw [ParseQosMetricsWith_eq] at h
  simp only [Option.some.injEq] at h
  subst h
  rw [get?_foldl_qosPendingStep _ _ hq, get?_foldl_qosRunningStepWith]
  simp only [Map.get?]
  have hcount : (Split pending '\n').count q
      = ((Split pending '\n').filter (fun l => decide (l = q))).length := by
    rw [List.count, List.countP_eq_length_filter]
    congr 1
    apply List.filter_congr
    intro x _
    by_cases hx : x = q
    · simp [hx]
    · have hx' : ¬ q = x := fun e => hx e.symm
      simp [hx, hx']
  rw [hcount]
  generalize qosCpus pf (Split running '\n') q = cs
  generalize (Split pending '\n').filter (fun l => decide (l = q)) = ps
  rw [foldl_some_getD (fun r c => QosMetrics.addRunningWith fadd c r) QosMetrics.zero cs none,
    foldl_some_getD (fun r (_ : Str) => QosMetrics.addPending r) QosMetrics.zero ps]
  have hz : QosMetrics.zero = ⟨Float64.fin 0, Float64.fin (0 : ℚ), Float64.fin (0 : ℚ),
      Float64.fin (0 : ℚ)⟩ := rfl
  cases cs with
  | nil =>
    cases ps with
    | nil => simp
    | cons p ps =>
      simp only [List.isEmpty_nil, List.isEmpty_cons, if_true, Option.getD_none, hz,
        foldl_addPending, Bool.false_eq_true, if_false]
      simp
  | cons c cs =>
    cases ps with
    | nil =>
      simp only [List.isEmpty_nil, List.isEmpty_cons, if_true, Option.getD_none, hz,
        foldl_addRunningWith, Bool.false_eq_true, if_false]
      simp
    | cons p ps =>
      simp only [List.isEmpty_cons, Option.getD_none, Option.getD_some, hz,
        foldl_addRunningWith, foldl_addPending, Bool.false_eq_true, if_false]
      simp

/-- C11 (amended): the record of a non-empty QoS name `q` has `cpus_allocated`
equal to the value that the float64 addition of `cpus_allocated += cpus`
accumulates, from 0 and in line order, over the CPU counts read from the
second field of the running-job lines that carry a comma and have `q` as
first field; `jobs_running` is the number of those lines, a running-job line
without a comma not being counted, and `jobs_pending` is the number of
pending-job lines equal to `q`. The addition is a parameter of the statement,
so nothing is assumed of its rounding or overflow; with `Float64.add` the
parser is `ParseQosMetrics`. -/
theorem qos_record_sums (fadd : Float64 → Float64 → Float64) (pf : ParseFloatFn)
    (running pending q : Str) (hq : q ≠ [])
    (m : Map Str QosMetrics) (r : QosMetrics)
    (h : ParseQosMetricsWith fadd pf running pending = some m)
    (hr : Map.get? m q = some r) :
    r.cpus_allocated = (qosCpus pf (Split running '\n') q).foldl fadd (Float64.fin 0)
    ∧ qosCpus pf (Split running '\n') q
        = ((Split running '\n').filter
            (fun l => Contains l ',' && decide (firstField l ',' = q))).map
          (fun l => (pf (secondField l ',')).1)
    ∧ r.jobs_running = Float64.fin (((Split running '\n').filter
        (fun l => Contains l ',' && decide (firstField l ',' = q))).length)
    ∧ r.jobs_pending = Float64.fin ((Split pending '\n').count q)
    ∧ ParseQosMetricsWith Float64.add pf running pending
        = ParseQosMetrics pf running pending := by
  rw [ParseQosMetricsWith_get? fadd pf running pending q hq m h] at hr
  have hn : ∀ l, qosNames l q = (Contains l ',' && decide (firstField l ',' = q)) := by
    intro l
    by_cases h3 : firstField l ',' = q
    · simp [qosNames, qosCounted, h3, hq]
    · simp [qosNames, qosCounted, h3]
  have hf : (fun l => qosNames l q)
      = (fun l => Contains l ',' && decide (firstField l ',' = q)) := funext hn
  have hc : qosCpus pf (Split running '\n') q
      = ((Split running '\n').filter
          (fun l => Contains l ',' && decide (firstField l ',' = q))).map
        (fun l => (pf (secondField l ',')).1) := by
    unfold qosCpus
    rw [hf]
  split at hr
  · simp at hr
  · simp only [Option.some.injEq] at hr
    subst hr
    refine ⟨rfl, hc, ?_, rfl, rfl⟩
    simp only [hc, List.length_map]

theorem qos_record_sums_witness :
    ParseQosMetrics ParseFloat "normal,4\nhigh,8\nnormal\nnormal,2.5\n,3".toList
        "normal\nlow\nnormal".toList
      = some [("normal".toList, ⟨.fin (13 / 2), .fin 2, .fin 2, .fin 4⟩),
          ("high".toList, ⟨.fin 8, .fin 1, .fin 0, .fin 1⟩),
          ("low".toList, ⟨.fin 0, .fin 0, .fin 1, .fin 1⟩)]
    ∧ (Split "normal,4\nhigh,8\nnormal\nnormal,2.5\n,3".toList '\n').filter
        (fun l => Contains l ',' && decide (firstField l ',' = "normal".toList))
        = ["normal,4".toList, "normal,2.5".toList]
    ∧ (Float64.fin (13 / 2) = (qosCpus ParseFloat
          (Split "normal,4\nhigh,8\nnormal\nnormal,2.5\n,3".toList '\n')
          "normal".toList).foldl Float64.add (Float64.fin 0)
      ∧ qosCpus ParseFloat (Split "normal,4\nhigh,8\nnormal\nnormal,2.5\n,3".toList '\n')
          "normal".toList
        = ((Split "normal,4\nhigh,8\nnormal\nnormal,2.5\n,3".toList '\n').filter
            (fun l => Contains l ',' && decide (firstField l ',' = "normal".toList))).map
          (fun l => (ParseFloat (secondField l ',')).1)
      ∧ Float64.fin 2 = Float64.fin
          (((Split "normal,4\nhigh,8\nnormal\nnormal,2.5\n,3".toList '\n').filter
            (fun l => Contains l ',' && decide (firstField l ',' = "normal".toList))).length)
      ∧ Float64.fin 2 = Float64.fin ((Split "normal\nlow\nnormal".toList '\n').count
          "normal".toList)
      ∧ ParseQosMetricsWith Float64.add ParseFloat
          "normal,4\nhigh,8\nnormal\nnormal,2.5\n,3".toList "normal\nlow\nnormal".toList
        = ParseQosMetrics ParseFloat
          "normal,4\nhigh,8\nnormal\nnormal,2.5\n,3".toList "normal\nlow\nnormal".toList) :=
  ⟨by decide!, by decide,
    qos_record_sums Float64.add ParseFloat "normal,4\nhigh,8\nnormal\nnormal,2.5\n,3".toList
      "normal\nlow\nnormal".toList "normal".toList (by decide)
      [("normal".toList, ⟨.fin (13 / 2), .fin 2, .fin 2, .fin 4⟩),
        ("high".toList, ⟨.fin 8, .fin 1, .fin 0, .fin 1⟩),
        ("low".toList, ⟨.fin 0, .fin 0, .fin 1, .fin 1⟩)]
      ⟨.fin (13 / 2), .fin 2, .fin 2, .fin 4⟩ (by decide!) (by decide!)⟩

/-- On the running-job text of the two lines `normal,4` and `normal`, both
with `normal` as first comma-separated field, the record of `normal` counts
one running job: the line without a comma is skipped. -/
theorem qos_record_sums_counterexample :
    ParseQosMetrics ParseFloat "normal,4\nnormal".toList [] =
        some [("normal".toList, ⟨.fin 4, .fin 1, .fin 0, .fin 1⟩)]
    ∧ Split "normal,4\nnormal".toList '\n' = ["normal,4".toList, "normal".toList]
    ∧ firstField "normal,4".toList ',' = "normal".toList
    ∧ firstField "normal".toList ',' = "normal".toList
    ∧ ((Split "normal,4\nnormal".toList '\n').filter
        (fun l => decide (firstField l ',' = "normal".toList))).length = 2
    ∧ Contains "normal".toList ',' = false
    ∧ Float64.fin 1 ≠ Float64.fin 2 := by
  refine ⟨by decide!, by decide, by decide, by decide, by decide, by decide, by decide!⟩

/-! ## The keys of the QoS mapping -/

theorem qos_empty_key_aux (pf : ParseFloatFn) (running pending : Str) :
    ∃ m, ParseQosMetrics pf running pending = some m ∧ [] ∉ Map.keys m ∧ Map.get? m [] = none := by
  refine ⟨_, ParseQosMetrics_eq pf running pending, ?_⟩
  have hk : [] ∉ Map.keys ((Split pending '\n').foldl qosPendingStep
      ((Split running '\n').foldl (qosRunningStep pf) [])) :=
    foldl_no_empty_key _ qosPendingStep_no_empty_key _ _
      (foldl_no_empty_key _ (qosRunningStep_no_empty_key pf) _ _ (by simp [Map.keys]))
  refine ⟨hk, ?_⟩
  cases hg : Map.get? ((Split pending '\n').foldl qosPendingStep
      ((Split running '\n').foldl (qosRunningStep pf) [])) [] with
  | none => rfl
  | some v => exact absurd ((Map.mem_keys_iff _ _).mpr ⟨v, hg⟩) hk

/-- C12: the keys of the mapping `ParseQosMetrics` returns are exactly the
non-empty first fields of the comma-carrying running-job lines and the
non-empty pending-job lines; a QoS named by pending-job lines only has a
record with no CPUs, no running job and as many pending and total jobs as
there are such lines. -/
theorem qos_keys_lazy (pf : ParseFloatFn) (running pending : Str) (m : Map Str QosMetrics)
    (h : ParseQosMetrics pf running pending = some m) :
    (∀ q, q ∈ Map.keys m ↔
      q ≠ [] ∧ ((∃ l ∈ Split running '\n', Contains l ',' = true ∧ firstField l ',' = q)
        ∨ q ∈ Split pending '\n'))
    ∧ (∀ q, q ≠ [] → q ∈ Split pending '\n' →
        (∀ l ∈ Split running '\n', ¬ (Contains l ',' = true ∧ firstField l ',' = q)) →
        Map.get? m q = some ⟨Float64.fin 0, Float64.fin 0,
          Float64.fin ((Split pending '\n').count q), Float64.fin ((Split pending '\n').count q)⟩) := by
  have hn : ∀ q, q ≠ [] →
      (qosCpus pf (Split running '\n') q = []
        ↔ ∀ l ∈ Split running '\n', ¬ (Contains l ',' = true ∧ firstField l ',' = q)) := by
    intro q hq
    simp only [qosCpus, List.map_eq_nil_iff, List.filter_eq_nil_iff, qosNames, qosCounted,
      Bool.and_eq_true, decide_eq_true_eq]
    constructor
    · intro h1 l hl h2
      exact h1 l hl ⟨⟨h2.1, h2.2 ▸ hq⟩, h2.2⟩
    · intro h1 l hl h2
      exact h1 l hl ⟨h2.1.1, h2.2⟩
  constructor
  · intro q
    by_cases hq : q = []
    · subst hq
      obtain ⟨m', hm', hk, -⟩ := (qos_empty_key_aux pf running pending)
      rw [h] at hm'
      simp only [Option.some.injEq] at hm'
      subst hm'
      simp [hk]
    · rw [Map.mem_keys_iff, ParseQosMetrics_get? pf running pending q hq m h]
      have h1 := hn q hq
      constructor
      · rintro ⟨v, hv⟩
        refine ⟨hq, ?_⟩
        split at hv
        · simp at hv
        · rename_i hc
          by_contra hcon
          simp only [not_or, not_exists, not_and] at hcon
          apply hc
          refine ⟨h1.mpr (fun l hl h2 => hcon.1 l hl h2.1 h2.2), ?_⟩
          exact List.count_eq_zero.mpr hcon.2
      · rintro ⟨-, h2⟩
        have hc : ¬ (qosCpus pf (Split running '\n') q = []
            ∧ (Split pending '\n').count q = 0) := by
          rintro ⟨c1, c2⟩
          rcases h2 with ⟨l, hl, h3⟩ | h3
          · exact h1.mp c1 l hl h3
          · exact List.count_eq_zero.mp c2 h3
        simp [hc]
  · intro q hq hp hr
    rw [ParseQosMetrics_get? pf running pending q hq m h]
    have hc : ¬ (qosCpus pf (Split running '\n') q = []
        ∧ (Split pending '\n').count q = 0) := by
      rintro ⟨-, c2⟩
      exact List.count_eq_zero.mp c2 hp
    have hcs := (hn q hq).mpr hr
    rw [if_neg hc, hcs]
    simp [qosRecord, Float64.sum]

theorem qos_keys_lazy_witness :
    (∀ q, q ∈ Map.keys [("normal".toList, (⟨.fin 4, .fin 1, .fin 0, .fin 1⟩ : QosMetrics)),
          ("low".toList, ⟨.fin 0, .fin 0, .fin 2, .fin 2⟩)] ↔
      q ≠ [] ∧ ((∃ l ∈ Split "normal,4\n,2\nplain".toList '\n',
          Contains l ',' = true ∧ firstField l ',' = q)
        ∨ q ∈ Split "low\n\nlow".toList '\n'))
    ∧ Map.get? [("normal".toList, (⟨.fin 4, .fin 1, .fin 0, .fin 1⟩ : QosMetrics)),
          ("low".toList, ⟨.fin 0, .fin 0, .fin 2, .fin 2⟩)] "low".toList
        = some ⟨Float64.fin 0, Float64.fin 0,
            Float64.fin ((Split "low\n\nlow".toList '\n').count "low".toList),
            Float64.fin ((Split "low\n\nlow".toList '\n').count "low".toList)⟩ :=
  ⟨(qos_keys_lazy ParseFloat "normal,4\n,2\nplain".toList "low\n\nlow".toList _ (by decide!)).1,
    (qos_keys_lazy ParseFloat "normal,4\n,2\nplain".toList "low\n\nlow".toList _ (by decide!)).2
      "low".toList (by decide) (by decide!) (by decide!)⟩

/-! ## `ParseQosMetrics` is total -/

/-- C18: `ParseQosMetrics` returns a mapping on every pair of texts: on a
line with a comma the indices 0 and 1 of the split line are in range, and
neither loop body can panic. -/
theorem qos_total (pf : ParseFloatFn) :
    (∀ running pending, ∃ m, ParseQosMetrics pf running pending = some m)
    ∧ (∀ line, Contains line ',' = true →
        (Split line ',')[0]? = some (firstField line ',')
          ∧ (Split line ',')[1]? = some (secondField line ',')
          ∧ 2 ≤ (Split line ',').length)
    ∧ (∀ m line, ∃ m', qosRunningLine pf m line = some m')
    ∧ (∀ m line, ∃ m', qosPendingLine m line = some m') := by
  refine ⟨fun running pending => ⟨_, ParseQosMetrics_eq pf running pending⟩, ?_,
    fun m line => ⟨_, qosRunningLine_eq pf m line⟩, fun m line => ⟨_, qosPendingLine_eq m line⟩⟩
  intro line hc
  refine ⟨Split_zero line ',', Split_one line ',' hc, ?_⟩
  have hne := splitAux_snd_ne_nil ',' line (by simpa [Contains] using hc)
  unfold Split
  cases hs : (splitAux ',' line).2 with
  | nil => exact absurd hs hne
  | cons a as => simp

theorem qos_total_witness :
    ((Split ",".toList ',')[0]? = some (firstField ",".toList ',')
      ∧ (Split ",".toList ',')[1]? = some (secondField ",".toList ',')
      ∧ 2 ≤ (Split ",".toList ',').length)
    ∧ ParseQosMetrics ParseFloat ",\na,b,c\n,,,\nq,,1\n,4".toList ",\n\nq".toList
        = some [("a".toList, ⟨.fin 0, .fin 1, .fin 0, .fin 1⟩),
            ("q".toList, ⟨.fin 0, .fin 1, .fin 1, .fin 2⟩),
            (",".toList, ⟨.fin 0, .fin 0, .fin 1, .fin 1⟩)] :=
  ⟨(qos_total ParseFloat).2.1 ",".toList (by decide), by decide!⟩

/-! ## The job counters of the partition mapping -/

theorem get?_foldl_update {V : Type} (f : V → V) (n : Str) (ls : List Str) :
    ∀ m : Map Str V, Map.get? (ls.foldl (fun m p => Map.update m p f) m) n
      = (Map.get? m n).map (f^[ls.count n]) := by
  induction ls with
  | nil => intro m; simp
  | cons a ls ih =>
    intro m
    simp only [List.foldl_cons, ih]
    by_cases ha : a = n
    · subst ha
      rw [Map.get?_update_self, List.count_cons_self, Function.iterate_succ, Option.map_map]
    · have ha' : (a == n) = false := by simpa using ha
      rw [Map.get?_update_ne _ _ ha, List.count_cons, ha']
      simp

theorem iterate_addRunning (c : ℕ) (r : PartitionMetrics) (a t : ℚ)
    (ha : r.jobs_running = Float64.fin a) (ht : r.jobs_total = Float64.fin t) :
    PartitionMetrics.addRunning^[c] r
      = { r with jobs_running := Float64.fin (a + c), jobs_total := Float64.fin (t + c) } := by
  induction c with
  | zero =>
    cases r
    simp only [PartitionMetrics.mk.injEq] at ha ht ⊢
    simp_all
  | succ c ih =>
    rw [Function.iterate_succ_apply', ih]
    simp only [PartitionMetrics.addRunning, Float64.add]
    push_cast
    simp only [add_assoc]

theorem iterate_addPending (c : ℕ) (r : PartitionMetrics) (b t : ℚ)
    (hb : r.jobs_pending = Float64.fin b) (ht : r.jobs_total = Float64.fin t) :
    PartitionMetrics.addPending^[c] r
      = { r with jobs_pending := Float64.fin (b + c), jobs_total := Float64.fin (t + c) } := by
  induction c with
  | zero =>
    cases r
    simp only [PartitionMetrics.mk.injEq] at hb ht ⊢
    simp_all
  | succ c ih =>
    rw [Function.iterate_succ_apply', ih]
    simp only [PartitionMetrics.addPending, Float64.add]
    push_cast
    simp only [add_assoc]

/-- The record of the partition `n` in the mapping `ParsePartitionsMetrics`
returns: the record the first loop made, with the two counts of job lines. -/
theorem ParsePartitionsMetrics_get? (pf : ParseFloatFn) (data running pending : Str)
    (m : Map Str PartitionMetrics) (h : ParsePartitionsMetrics pf data running pending = some m) :
    ∃ m0, (Split data '\n').foldlM (partitionsStateLine pf) [] = some m0
      ∧ ∀ n, Map.get? m n = (Map.get? m0 n).map (fun r =>
          { r with
            jobs_running := Float64.fin ((Split running '\n').count n)
            jobs_pending := Float64.fin ((Split pending '\n').count n)
            jobs_total := Float64.fin
              (((Split running '\n').count n : ℚ) + (Split pending '\n').count n) }) := by
  rw [ParsePartitionsMetrics_eq] at h
  cases hs : (Split data '\n').foldlM (partitionsStateLine pf) [] with
  | none => simp [hs] at h
  | some m0 =>
    simp only [hs, Option.map_some', Option.some.injEq] at h
    subst h
    refine ⟨m0, rfl, ?_⟩
    intro n
    rw [get?_foldl_update, get?_foldl_update, Option.map_map]
    cases hg : Map.get? m0 n with
    | none => rfl
    | some r =>
      have hnj : ∀ e ∈ m0, e.2.NoJobs :=
        foldlM_some_inv (fun m : Map Str PartitionMetrics => ∀ e ∈ m, e.2.NoJobs) _
          (fun b a b' hb hs => partitionsStateLine_noJobs pf b b' a hb hs) _ _ _ (by simp) hs
      have hj : r.NoJobs := hnj _ (Map.mem_of_get? hg)
      obtain ⟨j1, j2, j3⟩ := hj
      simp only [Option.map_some', Function.comp_apply, Option.some.injEq]
      rw [iterate_addRunning _ r 0 0 (by simpa using j1) (by simpa using j3),
        iterate_addPending _ _ 0 (0 + ((Split running '\n').count n : ℚ)) (by simpa using j2) rfl]
      simp

/-- C17: in the record of a partition `n` of the returned mapping,
`jobs_running` is the number of lines of the running-job text equal to `n` and
`jobs_pending` the number of lines of the pending-job text equal to `n`,
`jobs_total` their sum; the record does not change when the lines of the job
texts are put in another order. -/
theorem partitions_job_counts (pf : ParseFloatFn) (data running pending : Str)
    (m : Map Str PartitionMetrics) (n : Str) (r : PartitionMetrics)
    (h : ParsePartitionsMetrics pf data running pending = some m)
    (hr : Map.get? m n = some r) :
    r.jobs_running = Float64.fin ((Split running '\n').count n)
    ∧ r.jobs_pending = Float64.fin ((Split pending '\n').count n)
    ∧ r.jobs_total = Float64.fin (((Split running '\n').count n + (Split pending '\n').count n : ℕ))
    ∧ (∀ running' pending', (Split running' '\n').Perm (Split running '\n') →
        (Split pending' '\n').Perm (Split pending '\n') →
        ∃ m', ParsePartitionsMetrics pf data running' pending' = some m'
          ∧ Map.get? m' n = some r) := by
  obtain ⟨m0, hm0, hget⟩ := ParsePartitionsMetrics_get? pf data running pending m h
  have hrn := hget n
  rw [hr] at hrn
  cases hg : Map.get? m0 n with
  | none => simp [hg] at hrn
  | some r0 =>
    simp only [hg, Option.map_some', Option.some.injEq] at hrn
    refine ⟨by rw [hrn], by rw [hrn], ?_, ?_⟩
    · rw [hrn]
      push_cast
      rfl
    · intro running' pending' hpr hpp
      have hsome : (ParsePartitionsMetrics pf data running' pending').isSome = true := by
        rw [ParsePartitionsMetrics_isSome, ← ParsePartitionsMetrics_isSome pf data running pending,
          h]
        rfl
      obtain ⟨m', hm'⟩ := Option.isSome_iff_exists.mp hsome
      refine ⟨m', hm', ?_⟩
      obtain ⟨m0', hm0', hget'⟩ := ParsePartitionsMetrics_get? pf data running' pending' m' hm'
      rw [hm0] at hm0'
      simp only [Option.some.injEq] at hm0'
      subst hm0'
      have e1 : (Split running' '\n').count n = (Split running '\n').count n :=
        hpr.countP_eq _
      have e2 : (Split pending' '\n').count n = (Split pending '\n').count n :=
        hpp.countP_eq _
      rw [hget' n, hg, e1, e2, hrn]
      rfl

theorem partitions_job_counts_witness :
    (Float64.fin 2 = Float64.fin ((Split "gpu\ncpu\ngpu\nhimem\n".toList '\n').count "gpu".toList)
      ∧ Float64.fin 1 = Float64.fin ((Split "cpu\ngpu".toList '\n').count "gpu".toList)
      ∧ Float64.fin 3 = Float64.fin (((Split "gpu\ncpu\ngpu\nhimem\n".toList '\n').count
          "gpu".toList + (Split "cpu\ngpu".toList '\n').count "gpu".toList : ℕ))
      ∧ (∀ running' pending',
          (Split running' '\n').Perm (Split "gpu\ncpu\ngpu\nhimem\n".toList '\n') →
          (Split pending' '\n').Perm (Split "cpu\ngpu".toList '\n') →
          ∃ m', ParsePartitionsMetrics ParseFloat "gpu,10/5/0/15\ncpu,0/8/0/8".toList
              running' pending' = some m'
            ∧ Map.get? m' "gpu".toList
              = some ⟨.fin 10, .fin 5, .fin 0, .fin 2, .fin 1, .fin 3, .fin 15⟩))
    ∧ ParsePartitionsMetrics ParseFloat "gpu,10/5/0/15\ncpu,0/8/0/8".toList
        "\nhimem\ngpu\ngpu\ncpu".toList "gpu\ncpu".toList
      = some [("gpu".toList, ⟨.fin 10, .fin 5, .fin 0, .fin 2, .fin 1, .fin 3, .fin 15⟩),
          ("cpu".toList, ⟨.fin 0, .fin 8, .fin 0, .fin 1, .fin 1, .fin 2, .fin 8⟩)] :=
  ⟨partitions_job_counts ParseFloat "gpu,10/5/0/15\ncpu,0/8/0/8".toList
      "gpu\ncpu\ngpu\nhimem\n".toList "cpu\ngpu".toList
      [("gpu".toList, ⟨.fin 10, .fin 5, .fin 0, .fin 2, .fin 1, .fin 3, .fin 15⟩),
        ("cpu".toList, ⟨.fin 0, .fin 8, .fin 0, .fin 1, .fin 1, .fin 2, .fin 8⟩)]
      "gpu".toList ⟨.fin 10, .fin 5, .fin 0, .fin 2, .fin 1, .fin 3, .fin 15⟩
      (by decide!) (by decide!),
    by decide!⟩

/-! ## Blank lines of the job texts -/

theorem ParsePartitionsMetrics_known_lines (pf : ParseFloatFn) (data running pending : Str)
    (running' pending' : Str)
    (hr : (Split running' '\n').filter (knownPartition data)
      = (Split running '\n').filter (knownPartition data))
    (hp : (Split pending' '\n').filter (knownPartition data)
      = (Split pending '\n').filter (knownPartition data)) :
    ParsePartitionsMetrics pf data running' pending'
      = ParsePartitionsMetrics pf data running pending := by
  rw [ParsePartitionsMetrics_eq, ParsePartitionsMetrics_eq]
  cases hs : (Split data '\n').foldlM (partitionsStateLine pf) [] with
  | none => rfl
  | some m0 =>
    simp only [Option.map_some', Option.some.injEq]
    have h0 : ∀ k, Map.contains m0 k = knownPartition data k := by
      intro k
      rw [Bool.eq_iff_iff, Map.contains_iff_mem_keys,
        foldlM_partitionsStateLine_keys pf _ _ _ hs k]
      simp [Map.keys, knownPartition]
    have h1 : ∀ (ls : List Str) k, Map.contains
        (ls.foldl (fun m p => Map.update m p PartitionMetrics.addRunning) m0) k
          = knownPartition data k := by
      intro ls k
      rw [← h0 k, Bool.eq_iff_iff, Map.contains_iff_mem_keys, Map.contains_iff_mem_keys,
        keys_foldl_update]
    rw [foldl_update_filter _ (knownPartition data) (Split running' '\n') m0 h0,
      foldl_update_filter _ (knownPartition data) (Split running '\n') m0 h0, hr,
      foldl_update_filter _ (knownPartition data) (Split pending' '\n') _ (h1 _),
      foldl_update_filter _ (knownPartition data) (Split pending '\n') _ (h1 _), hp]

theorem filter_known_without_blank (known : Str → Bool) (hk : known [] = false) (s : Str) :
    (Split (joinLines ((Split s '\n').filter (fun l => decide (l ≠ [])))) '\n').filter known
      = (Split s '\n').filter known := by
  have hff : ((Split s '\n').filter (fun l => decide (l ≠ []))).filter known
      = (Split s '\n').filter known := by
    rw [List.filter_filter]
    apply List.filter_congr
    intro x _
    by_cases hx : x = []
    · simp [hx, hk]
    · simp [hx]
  by_cases hne : (Split s '\n').filter (fun l => decide (l ≠ [])) = []
  · rw [← hff, hne, Split_joinLines_nil]
    simp [hk]
  · rw [Split_joinLines _ hne (fun l hl => Split_not_mem '\n' s l (List.mem_filter.mp hl).1), hff]

/-- C19 (amended): when no line of the state text names a partition by the
empty string, the blank lines of the running-job and pending-job texts change
nothing: the job texts without their empty lines give the same result. -/
theorem partitions_blank_job_lines (pf : ParseFloatFn) (data running pending : Str)
    (hk : knownPartition data [] = false) :
    ParsePartitionsMetrics pf data
        (joinLines ((Split running '\n').filter (fun l => decide (l ≠ []))))
        (joinLines ((Split pending '\n').filter (fun l => decide (l ≠ []))))
      = ParsePartitionsMetrics pf data running pending :=
  ParsePartitionsMetrics_known_lines pf data running pending _ _
    (filter_known_without_blank _ hk running) (filter_known_without_blank _ hk pending)

theorem partitions_blank_job_lines_witness :
    ParsePartitionsMetrics ParseFloat "gpu,10/5/0/15\n".toList
        (joinLines ((Split "\ngpu\n\ngpu\n".toList '\n').filter (fun l => decide (l ≠ []))))
        (joinLines ((Split "\n\n".toList '\n').filter (fun l => decide (l ≠ []))))
      = ParsePartitionsMetrics ParseFloat "gpu,10/5/0/15\n".toList "\ngpu\n\ngpu\n".toList
        "\n\n".toList
    ∧ joinLines ((Split "\ngpu\n\ngpu\n".toList '\n').filter (fun l => decide (l ≠ [])))
      = "gpu\ngpu".toList
    ∧ ParsePartitionsMetrics ParseFloat "gpu,10/5/0/15\n".toList "\ngpu\n\ngpu\n".toList
        "\n\n".toList
      = some [("gpu".toList, ⟨.fin 10, .fin 5, .fin 0, .fin 2, .fin 0, .fin 2, .fin 15⟩)] :=
  ⟨partitions_blank_job_lines ParseFloat "gpu,10/5/0/15\n".toList "\ngpu\n\ngpu\n".toList
      "\n\n".toList (by decide!),
    by decide!, by decide!⟩

/-- C19, as stated, fails when a state line names a partition by the empty
string: after the state line `,1/2/3/4` every blank job line counts as a job of
that partition, so the running-job text of one newline gives two running jobs
and the same text without its empty lines gives one. -/
theorem partitions_blank_job_lines_counterexample :
    ParsePartitionsMetrics ParseFloat ",1/2/3/4".toList "\n".toList "".toList
        = some [([], ⟨.fin 1, .fin 2, .fin 3, .fin 2, .fin 1, .fin 3, .fin 4⟩)]
    ∧ joinLines ((Split "\n".toList '\n').filter (fun l => decide (l ≠ []))) = []
    ∧ ParsePartitionsMetrics ParseFloat ",1/2/3/4".toList [] "".toList
        = some [([], ⟨.fin 1, .fin 2, .fin 3, .fin 1, .fin 1, .fin 2, .fin 4⟩)]
    ∧ ParsePartitionsMetrics ParseFloat ",1/2/3/4".toList
          (joinLines ((Split "\n".toList '\n').filter (fun l => decide (l ≠ []))))
          (joinLines ((Split "".toList '\n').filter (fun l => decide (l ≠ []))))
        ≠ ParsePartitionsMetrics ParseFloat ",1/2/3/4".toList "\n".toList "".toList := by
  refine ⟨by decide!, by decide!, by decide!, by decide!⟩

/-! ## The records of the fair-share mapping -/

theorem fairShareLine_some (pf : ParseFloatFn) (m m' : Map UserAccount FairShareMetrics)
    (l : Str) (h : fairShareLine pf m l = some m') :
    (fairShareRead l = false ∧ m' = m)
      ∨ (fairShareRead l = true ∧ ∃ v, thirdField? l '|' = some v
          ∧ m' = Map.set m (fairShareKey l) ⟨(pf v).1⟩) := by
  rw [fairShareLine_eq] at h
  by_cases hc : fairShareRead l = true
  · simp only [hc, if_true] at h
    cases hv : thirdField? l '|' with
    | none => simp [hv] at h
    | some v =>
      simp only [hv, Option.map_some', Option.some.injEq] at h
      exact Or.inr ⟨hc, v, rfl, h.symm⟩
  · simp only [Bool.not_eq_true] at hc
    simp only [hc, Bool.false_eq_true, if_false, Option.some.injEq] at h
    exact Or.inl ⟨hc, h.symm⟩

theorem fairShareLine_get?_other (pf : ParseFloatFn) (m m' : Map UserAccount FairShareMetrics)
    (l : Str) (k : UserAccount) (hl : fairShareNames l k = false)
    (h : fairShareLine pf m l = some m') : Map.get? m' k = Map.get? m k := by
  rcases fairShareLine_some pf m m' l h with ⟨-, rfl⟩ | ⟨hr, v, -, rfl⟩
  · rfl
  · have hne : fairShareKey l ≠ k := by
      simpa [fairShareNames, hr] using hl
    exact Map.get?_set_ne _ _ hne

theorem fairShareLine_get?_self (pf : ParseFloatFn) (m m' : Map UserAccount FairShareMetrics)
    (l : Str) (k : UserAccount) (hl : fairShareNames l k = true)
    (h : fairShareLine pf m l = some m') :
    ∃ v, thirdField? l '|' = some v ∧ Map.get? m' k = some ⟨(pf v).1⟩ := by
  simp only [fairShareNames, Bool.and_eq_true, decide_eq_true_eq] at hl
  rcases fairShareLine_some pf m m' l h with ⟨hr, -⟩ | ⟨-, v, hv, rfl⟩
  · rw [hl.1] at hr
    exact absurd hr (by simp)
  · exact ⟨v, hv, by rw [← hl.2, Map.get?_set_self]⟩

theorem foldlM_fairShareLine_get?_other (pf : ParseFloatFn) (k : UserAccount) (ls : List Str) :
    (∀ l ∈ ls, fairShareNames l k = false) →
      ∀ b b', ls.foldlM (fairShareLine pf) b = some b' → Map.get? b' k = Map.get? b k := by
  induction ls with
  | nil =>
    intro _ b b' hb
    simp only [List.foldlM_nil, Option.pure_def, Option.some.injEq] at hb
    rw [hb]
  | cons c cs ih =>
    intro hcs b b' hb
    simp only [List.foldlM_cons] at hb
    cases hc : fairShareLine pf b c with
    | none => simp [hc] at hb
    | some b1 =>
      simp only [hc, Option.bind_eq_bind, Option.some_bind] at hb
      rw [ih (fun l hl => hcs l (List.mem_cons_of_mem _ hl)) b1 b' hb]
      exact fairShareLine_get?_other pf b b1 c k (hcs c (List.mem_cons_self _ _)) hc

theorem foldlM_fairShareLine_last (pf : ParseFloatFn) (k : UserAccount) (r : FairShareMetrics)
    (ls : List Str) :
    ∀ b b', ls.foldlM (fairShareLine pf) b = some b' → Map.get? b' k = some r →
      (Map.get? b k = some r ∧ ∀ l ∈ ls, fairShareNames l k = false)
      ∨ ∃ pre l post v, ls = pre ++ l :: post ∧ fairShareNames l k = true
          ∧ (∀ l' ∈ post, fairShareNames l' k = false)
          ∧ thirdField? l '|' = some v ∧ r = ⟨(pf v).1⟩ := by
  induction ls with
  | nil =>
    intro b b' hb hr
    simp only [List.foldlM_nil, Option.pure_def, Option.some.injEq] at hb
    subst hb
    exact Or.inl ⟨hr, by simp⟩
  | cons c cs ih =>
    intro b b' hb hr
    simp only [List.foldlM_cons] at hb
    cases hc : fairShareLine pf b c with
    | none => simp [hc] at hb
    | some b1 =>
      simp only [hc, Option.bind_eq_bind, Option.some_bind] at hb
      rcases ih b1 b' hb hr with ⟨h1, h2⟩ | ⟨pre, l, post, v, h1, h2, h3, h4, h5⟩
      · by_cases hn : fairShareNames c k = true
        · obtain ⟨v, hv, hg⟩ := fairShareLine_get?_self pf b b1 c k hn hc
          rw [h1] at hg
          simp only [Option.some.injEq] at hg
          exact Or.inr ⟨[], c, cs, v, rfl, hn, h2, hv, hg⟩
        · simp only [Bool.not_eq_true] at hn
          rw [fairShareLine_get?_other pf b b1 c k hn hc] at h1
          refine Or.inl ⟨h1, ?_⟩
          intro l hl
          rcases List.mem_cons.mp hl with h | h
          · exact h ▸ hn
          · exact h2 l h
      · exact Or.inr ⟨c :: pre, l, post, v, by simp [h1], h2, h3, h4, h5⟩

/-- C13 (amended): the record of a key of the fair-share mapping holds the
value read from the third field of the last line of the text that does not
begin with two spaces, carries the delimiter, and has the key as its user and
account once the spaces around them are cut: a later such line replaces the
value of an earlier one. A line that begins with one space or with a tab is
such a line. -/
theorem fairshare_last_row_wins (pf : ParseFloatFn) (data : Str)
    (m : Map UserAccount FairShareMetrics) (k : UserAccount) (r : FairShareMetrics)
    (h : ParseFairShareMetrics pf data = some m) (hr : Map.get? m k = some r) :
    ∃ pre l post v, Split data '\n' = pre ++ l :: post
      ∧ HasPrefix l [' ', ' '] = false ∧ Contains l '|' = true
      ∧ Trim (firstField l '|') ' ' = k.user ∧ Trim (secondField l '|') ' ' = k.account
      ∧ (∀ l' ∈ post, fairShareNames l' k = false)
      ∧ thirdField? l '|' = some v ∧ r.fairshare = (pf v).1 := by
  unfold ParseFairShareMetrics at h
  rcases foldlM_fairShareLine_last pf k r _ _ _ h hr with ⟨h1, -⟩ | ⟨pre, l, post, v, h1, h2, h3, h4, h5⟩
  · simp [Map.get?] at h1
  · simp only [fairShareNames, fairShareRead, fairShareKey, Bool.and_eq_true, Bool.not_eq_true',
      decide_eq_true_eq] at h2
    obtain ⟨⟨hp, hc⟩, hk⟩ := h2
    refine ⟨pre, l, post, v, h1, hp, hc, ?_, ?_, h3, h4, by rw [h5]⟩
    · rw [← hk]
    · rw [← hk]

theorem fairshare_last_row_wins_witness :
    ParseFairShareMetrics ParseFloat
        "alice|teamA|0.5\nbob|teamB|0.125\n alice | teamA |0.25\n  alice|teamA|0.75\n".toList
      = some [(⟨"alice".toList, "teamA".toList⟩, ⟨.fin (1 / 4)⟩),
          (⟨"bob".toList, "teamB".toList⟩, ⟨.fin (1 / 8)⟩)]
    ∧ ∃ pre l post v,
        Split "alice|teamA|0.5\nbob|teamB|0.125\n alice | teamA |0.25\n  alice|teamA|0.75\n".toList
            '\n' = pre ++ l :: post
          ∧ HasPrefix l [' ', ' '] = false ∧ Contains l '|' = true
          ∧ Trim (firstField l '|') ' ' = "alice".toList
          ∧ Trim (secondField l '|') ' ' = "teamA".toList
          ∧ (∀ l' ∈ post, fairShareNames l' ⟨"alice".toList, "teamA".toList⟩ = false)
          ∧ thirdField? l '|' = some v ∧ Float64.fin (1 / 4) = (ParseFloat v).1 :=
  ⟨by decide!,
    fairshare_last_row_wins ParseFloat
      "alice|teamA|0.5\nbob|teamB|0.125\n alice | teamA |0.25\n  alice|teamA|0.75\n".toList
      [(⟨"alice".toList, "teamA".toList⟩, ⟨.fin (1 / 4)⟩),
        (⟨"bob".toList, "teamB".toList⟩, ⟨.fin (1 / 8)⟩)]
      ⟨"alice".toList, "teamA".toList⟩ ⟨.fin (1 / 4)⟩ (by decide!) (by decide!)⟩

/-- On the text of the two lines `alice|teamA|0.5` and ` alice|teamA|0.75`,
the second beginning with one space, the record of `(alice, teamA)` holds
0.75, the value of the indented line, and not 0.5, the value of the only line
that begins with no whitespace. -/
theorem fairshare_last_row_wins_counterexample :
    ParseFairShareMetrics ParseFloat "alice|teamA|0.5\n alice|teamA|0.75".toList
        = some [(⟨"alice".toList, "teamA".toList⟩, ⟨.fin (3 / 4)⟩)]
    ∧ Split "alice|teamA|0.5\n alice|teamA|0.75".toList '\n'
        = ["alice|teamA|0.5".toList, " alice|teamA|0.75".toList]
    ∧ " alice|teamA|0.75".toList.head? = some ' '
    ∧ "alice|teamA|0.5".toList.head? = some 'a'
    ∧ thirdField? "alice|teamA|0.5".toList '|' = some "0.5".toList
    ∧ (ParseFloat "0.5".toList).1 = Float64.fin (1 / 2)
    ∧ Float64.fin (3 / 4) ≠ Float64.fin (1 / 2) := by
  refine ⟨by decide!, by decide, by decide, by decide, by decide, by decide!, by decide!⟩

/-! ## Indented fair-share lines -/

theorem foldlM_filter_noop {α β : Type} (step : β → α → Option β) (p : α → Bool)
    (h : ∀ b l, p l = false → step b l = some b) (ls : List α) :
    ∀ b, (ls.filter p).foldlM step b = ls.foldlM step b := by
  induction ls with
  | nil => intro b; rfl
  | cons a ls ih =>
    intro b
    by_cases ha : p a = true
    · simp only [List.filter_cons, ha, if_true, List.foldlM_cons]
      cases step b a with
      | none => rfl
      | some b1 => simp [ih]
    · simp only [Bool.not_eq_true] at ha
      simp only [List.filter_cons, ha, Bool.false_eq_true, if_false, List.foldlM_cons, h b a ha,
        Option.bind_eq_bind, Option.some_bind]
      exact ih b

theorem fairShareLine_indented (pf : ParseFloatFn) (m : Map UserAccount FairShareMetrics)
    (l : Str) (h : (!HasPrefix l [' ', ' ']) = false) : fairShareLine pf m l = some m := by
  rw [fairShareLine_eq]
  have hr : fairShareRead l = false := by
    simp only [fairShareRead, h, Bool.false_and]
  simp [hr]

/-- C14 (amended): the lines of the fair-share text that begin with two
spaces never create or update a record: the text without those lines gives the
same result. -/
theorem fairshare_two_space_lines (pf : ParseFloatFn) (data : Str) :
    ParseFairShareMetrics pf
        (joinLines ((Split data '\n').filter (fun l => !HasPrefix l [' ', ' '])))
      = ParseFairShareMetrics pf data := by
  unfold ParseFairShareMetrics
  rw [← foldlM_filter_noop (fairShareLine pf) (fun l => !HasPrefix l [' ', ' '])
    (fun b l hl => fairShareLine_indented pf b l hl) (Split data '\n') []]
  by_cases hne : (Split data '\n').filter (fun l => !HasPrefix l [' ', ' ']) = []
  · rw [hne, Split_joinLines_nil]
    rfl
  · rw [Split_joinLines _ hne
      (fun l hl => Split_not_mem '\n' data l (List.mem_filter.mp hl).1)]

/-- C14, as stated, fails for a line that begins with one space or with a
tab: such a line is read, creates a record and replaces the value of an
earlier line. -/
theorem fairshare_two_space_lines_counterexample :
    ParseFairShareMetrics ParseFloat " alice|teamA|0.5".toList
        = some [(⟨"alice".toList, "teamA".toList⟩, ⟨.fin (1 / 2)⟩)]
    ∧ ParseFairShareMetrics ParseFloat "\tbob|teamB|0.25".toList
        = some [(⟨"\tbob".toList, "teamB".toList⟩, ⟨.fin (1 / 4)⟩)]
    ∧ ParseFairShareMetrics ParseFloat "alice|teamA|0.5\n alice|teamA|0.75".toList
        = some [(⟨"alice".toList, "teamA".toList⟩, ⟨.fin (3 / 4)⟩)]
    ∧ ParseFairShareMetrics ParseFloat "alice|teamA|0.5".toList
        = some [(⟨"alice".toList, "teamA".toList⟩, ⟨.fin (1 / 2)⟩)]
    ∧ ParseFairShareMetrics ParseFloat "".toList = some [] := by
  refine ⟨by decide!, by decide!, by decide!, by decide!, by decide!⟩

/-! ## The fields of a fair-share line -/

theorem dropWhile_replicate_append (p : Char → Bool) (c : Char) (hc : p c = true) (i : ℕ)
    (x : Str) : (List.replicate i c ++ x).dropWhile p = x.dropWhile p := by
  induction i with
  | zero => rfl
  | succ i ih => simp [List.replicate_succ, List.dropWhile_cons, hc, ih]

theorem dropWhile_of_head (p : Char → Bool) (x : Str) (h : ∀ a, x.head? = some a → p a = false) :
    x.dropWhile p = x := by
  cases x with
  | nil => rfl
  | cons a as => simp [List.dropWhile_cons, h a rfl]

theorem Trim_pad (i j : ℕ) (x : Str) (hh : x.head? ≠ some ' ') (hl : x.getLast? ≠ some ' ') :
    Trim (List.replicate i ' ' ++ x ++ List.replicate j ' ') ' ' = x := by
  unfold Trim
  rw [List.append_assoc, dropWhile_replicate_append _ ' ' (by simp)]
  cases x with
  | nil =>
    have h0 := dropWhile_replicate_append (fun x => decide (x = ' ')) ' ' (by simp) j []
    simp only [List.append_nil, List.dropWhile_nil] at h0
    simp [h0]
  | cons a as =>
    have ha : ¬ a = ' ' := by
      intro e
      exact hh (by simp [e])
    rw [List.cons_append, List.dropWhile_cons]
    simp only [ha, decide_False, Bool.false_eq_true, if_false]
    rw [← List.cons_append, List.reverse_append, List.reverse_replicate,
      dropWhile_replicate_append _ ' ' (by simp), dropWhile_of_head, List.reverse_reverse]
    intro b hb
    rw [List.head?_reverse] at hb
    have : ¬ b = ' ' := by
      intro e
      exact hl (by rw [hb, e])
    simpa using this

theorem Trim_eq_nil_iff (x : Str) : Trim x ' ' = [] ↔ ∀ c ∈ x, c = ' ' := by
  unfold Trim
  rw [List.reverse_eq_nil_iff, List.dropWhile_eq_nil_iff]
  constructor
  · intro h
    have h1 : x.dropWhile (fun x => decide (x = ' ')) = [] := by
      cases hd : x.dropWhile (fun x => decide (x = ' ')) with
      | nil => rfl
      | cons a as =>
        have ha := List.head_dropWhile_not (fun x => decide (x = ' ')) x (by simp [hd])
        have hmem : a ∈ (x.dropWhile (fun x => decide (x = ' '))).reverse := by simp [hd]
        have := h a hmem
        simp only [hd, List.head_cons] at ha
        rw [this] at ha
        exact absurd ha (by simp)
    intro c hc
    have := List.dropWhile_eq_nil_iff.mp h1 c hc
    simpa using this
  · intro h c hc
    have hc' : c ∈ x := (List.dropWhile_sublist _).subset (List.mem_reverse.mp hc)
    simpa using h c hc'

theorem Split_fairShareLineOf (u a v : Str) (hu : '|' ∉ u) (ha : '|' ∉ a) (hv : '|' ∉ v) :
    Split (fairShareLineOf u a v) '|' = [u, a, v] := by
  unfold fairShareLineOf
  rw [Split_append _ _ _ hu, Split_append _ _ _ ha, Split_of_not_mem _ _ hv]

theorem fairShareLineOf_facts (u a v : Str) (hu : '|' ∉ u) (ha : '|' ∉ a) (hv : '|' ∉ v)
    (hp : HasPrefix (fairShareLineOf u a v) [' ', ' '] = false) :
    fairShareRead (fairShareLineOf u a v) = true
      ∧ fairShareKey (fairShareLineOf u a v) = ⟨Trim u ' ', Trim a ' '⟩
      ∧ thirdField? (fairShareLineOf u a v) '|' = some v := by
  have hs := Split_fairShareLineOf u a v hu ha hv
  have hc : Contains (fairShareLineOf u a v) '|' = true := by
    simp [Contains, fairShareLineOf]
  have h0 := Split_zero (fairShareLineOf u a v) '|'
  have h1 := Split_one (fairShareLineOf u a v) '|' hc
  rw [hs] at h0 h1
  simp only [List.getElem?_cons_zero, List.getElem?_cons_succ, Option.some.injEq] at h0 h1
  refine ⟨by simp [fairShareRead, hp, hc], ?_, ?_⟩
  · simp only [fairShareKey, ← h0, ← h1]
  · simp [thirdField?, hs]

theorem foldlM_all_ok {α β : Type} (step : β → α → Option β) (ok : α → Bool)
    (h : ∀ b a, (step b a).isSome = ok a) (ls : List α) (hok : ∀ l ∈ ls, ok l = true) (b : β) :
    ∃ b', ls.foldlM step b = some b' := by
  have hs := foldlM_isSome step ok h ls b
  rw [List.all_eq_true.mpr hok] at hs
  exact Option.isSome_iff_exists.mp hs

/-- C15 (amended): a line `U|A|V` that does not begin with two spaces is
stored under the key made of `U` and `A` with their leading and trailing
spaces removed, and the value stored is the one `strconv.ParseFloat` returns
for `V` as it stands; in a text whose read lines all have a third field the
record is found in the returned mapping when no later line has the same key.
Trimming removes spaces and nothing else. -/
theorem fairshare_line_fields (pf : ParseFloatFn) (u a v : Str)
    (hu : '|' ∉ u) (ha : '|' ∉ a) (hv : '|' ∉ v)
    (hp : HasPrefix (fairShareLineOf u a v) [' ', ' '] = false) :
    (∀ m, fairShareLine pf m (fairShareLineOf u a v)
        = some (Map.set m ⟨Trim u ' ', Trim a ' '⟩ ⟨(pf v).1⟩))
    ∧ (∀ data pre post, Split data '\n' = pre ++ fairShareLineOf u a v :: post →
        (∀ l ∈ Split data '\n', fairShareLineOk l = true) →
        (∀ l ∈ post, fairShareNames l ⟨Trim u ' ', Trim a ' '⟩ = false) →
        ∃ m, ParseFairShareMetrics pf data = some m
          ∧ Map.get? m ⟨Trim u ' ', Trim a ' '⟩ = some ⟨(pf v).1⟩)
    ∧ (∀ (i j : ℕ) (x : Str), x.head? ≠ some ' ' → x.getLast? ≠ some ' ' →
        Trim (List.replicate i ' ' ++ x ++ List.replicate j ' ') ' ' = x) := by
  obtain ⟨f1, f2, f3⟩ := fairShareLineOf_facts u a v hu ha hv hp
  have hstep : ∀ m, fairShareLine pf m (fairShareLineOf u a v)
      = some (Map.set m ⟨Trim u ' ', Trim a ' '⟩ ⟨(pf v).1⟩) := by
    intro m
    rw [fairShareLine_eq, f1, f2, f3]
    rfl
  refine ⟨hstep, ?_, Trim_pad⟩
  intro data pre post hsplit hok hpost
  unfold ParseFairShareMetrics
  obtain ⟨m, hm⟩ := foldlM_all_ok _ _ (fairShareLine_isSome pf) _ hok
    ([] : Map UserAccount FairShareMetrics)
  refine ⟨m, hm, ?_⟩
  rw [hsplit] at hm
  obtain ⟨m1, -, h2⟩ := foldlM_append_some _ _ _ _ _ hm
  simp only [List.foldlM_cons, hstep, Option.bind_eq_bind, Option.some_bind] at h2
  rw [foldlM_fairShareLine_get?_other pf _ post hpost _ _ h2, Map.get?_set_self]

theorem fairshare_line_fields_witness :
    (∀ m, fairShareLine ParseFloat m (fairShareLineOf " alice ".toList " teamA".toList
          "0.25".toList)
        = some (Map.set m ⟨Trim " alice ".toList ' ', Trim " teamA".toList ' '⟩
            ⟨(ParseFloat "0.25".toList).1⟩))
    ∧ Trim " alice ".toList ' ' = "alice".toList
    ∧ ParseFairShareMetrics ParseFloat " alice | teamA|0.25\nbob|teamB|1".toList
        = some [(⟨"alice".toList, "teamA".toList⟩, ⟨.fin (1 / 4)⟩),
            (⟨"bob".toList, "teamB".toList⟩, ⟨.fin 1⟩)] :=
  ⟨(fairshare_line_fields ParseFloat " alice ".toList " teamA".toList "0.25".toList
      (by decide) (by decide) (by decide) (by decide)).1,
    by decide, by decide!⟩

/-- C15, as stated, fails: the third field is not trimmed, so the value
` 5` is a syntax error and is stored as zero; and a tab is not trimmed from
the user. -/
theorem fairshare_line_fields_counterexample :
    ParseFairShareMetrics ParseFloat "alice|teamA| 5".toList
        = some [(⟨"alice".toList, "teamA".toList⟩, ⟨.fin 0⟩)]
    ∧ ParseFloat "5".toList = (Float64.fin 5, false)
    ∧ ParseFloat " 5".toList = (Float64.fin 0, true)
    ∧ ParseFairShareMetrics ParseFloat "alice|teamA|5 ".toList
        = some [(⟨"alice".toList, "teamA".toList⟩, ⟨.fin 0⟩)]
    ∧ ParseFairShareMetrics ParseFloat "alice\t|teamA|5".toList
        = some [(⟨"alice\t".toList, "teamA".toList⟩, ⟨.fin 5⟩)] := by
  refine ⟨by decide!, by decide!, by decide!, by decide!, by decide!⟩

/-! ## Empty keys -/

theorem foldlM_fairShareLine_keys (pf : ParseFloatFn) (ls : List Str) :
    ∀ (m m' : Map UserAccount FairShareMetrics), ls.foldlM (fairShareLine pf) m = some m' →
      ∀ k, k ∈ Map.keys m' ↔ k ∈ Map.keys m ∨ ls.any (fun l => fairShareNames l k) = true := by
  induction ls with
  | nil =>
    intro m m' h k
    simp only [List.foldlM_nil, Option.pure_def, Option.some.injEq] at h
    subst h
    simp
  | cons a ls ih =>
    intro m m' h k
    simp only [List.foldlM_cons] at h
    cases hs : fairShareLine pf m a with
    | none => simp [hs] at h
    | some m1 =>
      simp only [hs, Option.bind_eq_bind, Option.some_bind] at h
      rw [ih m1 m' h k]
      have hstep : k ∈ Map.keys m1 ↔ k ∈ Map.keys m ∨ fairShareNames a k = true := by
        rcases fairShareLine_some pf m m1 a hs with ⟨hr, rfl⟩ | ⟨hr, v, -, rfl⟩
        · simp [fairShareNames, hr]
        · rw [Map.keys_set]
          simp only [fairShareNames, hr, Bool.true_and, decide_eq_true_eq]
          split
          · rename_i hk
            constructor
            · exact Or.inl
            · rintro (h1 | h1)
              · exact h1
              · exact h1 ▸ hk
          · simp only [List.mem_append, List.mem_singleton]
            constructor
            · rintro (h1 | h1)
              · exact Or.inl h1
              · exact Or.inr h1.symm
            · rintro (h1 | h1)
              · exact Or.inl h1
              · exact Or.inr h1.symm
      rw [hstep]
      simp only [List.any_cons, Bool.or_eq_true]
      tauto

theorem namesPartition_nil_iff (l : Str) : namesPartition l [] = true ↔ l.head? = some ',' := by
  cases l with
  | nil => simp [namesPartition, Contains]
  | cons c cs =>
    by_cases hc : c = ','
    · simp [namesPartition, Contains, firstField, splitAux, hc]
    · simp [namesPartition, firstField, splitAux, hc]

/-- C16 (amended): the keys of the partition mapping are the first fields of
the comma-carrying state lines, so the empty string is a key exactly when a
state line begins with a comma; the keys of the fair-share mapping are the
pairs of the first two fields, trimmed of spaces, of the lines that are read,
and a trimmed field is empty exactly when the field holds nothing but
spaces. -/
theorem keys_from_lines (pf : ParseFloatFn) :
    (∀ data running pending m, ParsePartitionsMetrics pf data running pending = some m →
      ([] ∈ Map.keys m ↔ ∃ l ∈ Split data '\n', l.head? = some ',')
      ∧ ((∀ l ∈ Split data '\n', l.head? ≠ some ',') → ∀ k ∈ Map.keys m, k ≠ [])
      ∧ (∀ k, k ∈ Map.keys m ↔
          ∃ l ∈ Split data '\n', Contains l ',' = true ∧ firstField l ',' = k))
    ∧ (∀ data m, ParseFairShareMetrics pf data = some m →
      ∀ k, k ∈ Map.keys m ↔
        ∃ l ∈ Split data '\n', HasPrefix l [' ', ' '] = false ∧ Contains l '|' = true
          ∧ k = ⟨Trim (firstField l '|') ' ', Trim (secondField l '|') ' '⟩)
    ∧ (∀ data m, ParseFairShareMetrics pf data = some m →
      (∀ l ∈ Split data '\n', HasPrefix l [' ', ' '] = false → Contains l '|' = true →
        (∃ c ∈ firstField l '|', c ≠ ' ') ∧ (∃ c ∈ secondField l '|', c ≠ ' ')) →
      ∀ k ∈ Map.keys m, k.user ≠ [] ∧ k.account ≠ [])
    ∧ (∀ x : Str, Trim x ' ' = [] ↔ ∀ c ∈ x, c = ' ') := by
  have hfs : ∀ data m, ParseFairShareMetrics pf data = some m →
      ∀ k, k ∈ Map.keys m ↔
        ∃ l ∈ Split data '\n', HasPrefix l [' ', ' '] = false ∧ Contains l '|' = true
          ∧ k = ⟨Trim (firstField l '|') ' ', Trim (secondField l '|') ' '⟩ := by
    intro data m hm k
    unfold ParseFairShareMetrics at hm
    rw [foldlM_fairShareLine_keys pf _ _ _ hm k]
    simp only [Map.keys, List.map_nil, List.not_mem_nil, false_or, List.any_eq_true,
      fairShareNames, fairShareRead, fairShareKey, Bool.and_eq_true, Bool.not_eq_true',
      decide_eq_true_eq]
    constructor
    · rintro ⟨l, hl, ⟨h1, h2⟩, h3⟩
      exact ⟨l, hl, h1, h2, h3.symm⟩
    · rintro ⟨l, hl, h1, h2, h3⟩
      exact ⟨l, hl, ⟨h1, h2⟩, h3.symm⟩
  refine ⟨?_, hfs, ?_, Trim_eq_nil_iff⟩
  · intro data running pending m hm
    have hkeys : ∀ k, k ∈ Map.keys m ↔ ∃ l ∈ Split data '\n', namesPartition l k = true := by
      intro k
      rw [ParsePartitionsMetrics_eq] at hm
      cases hs : (Split data '\n').foldlM (partitionsStateLine pf) [] with
      | none => simp [hs] at hm
      | some m0 =>
        simp only [hs, Option.map_some', Option.some.injEq] at hm
        subst hm
        rw [keys_foldl_update, keys_foldl_update, foldlM_partitionsStateLine_keys pf _ _ _ hs k]
        simp [Map.keys]
    have hempty : [] ∈ Map.keys m ↔ ∃ l ∈ Split data '\n', l.head? = some ',' := by
      rw [hkeys]
      constructor
      · rintro ⟨l, hl, h⟩
        exact ⟨l, hl, (namesPartition_nil_iff l).mp h⟩
      · rintro ⟨l, hl, h⟩
        exact ⟨l, hl, (namesPartition_nil_iff l).mpr h⟩
    refine ⟨hempty, ?_, ?_⟩
    · intro hno k hk hnil
      rw [hnil] at hk
      obtain ⟨l, hl, h⟩ := hempty.mp hk
      exact hno l hl h
    · intro k
      rw [hkeys]
      simp [namesPartition]
  · intro data m hm hne k hk
    obtain ⟨l, hl, h1, h2, h3⟩ := (hfs data m hm k).mp hk
    obtain ⟨⟨c1, hc1, hn1⟩, ⟨c2, hc2, hn2⟩⟩ := hne l hl h1 h2
    rw [h3]
    constructor
    · intro he
      exact hn1 ((Trim_eq_nil_iff _).mp he c1 hc1)
    · intro he
      exact hn2 ((Trim_eq_nil_iff _).mp he c2 hc2)

theorem keys_from_lines_witness :
    (([] ∈ Map.keys [("gpu".toList,
            (⟨.fin 10, .fin 5, .fin 0, .fin 0, .fin 0, .fin 0, .fin 15⟩ : PartitionMetrics))]
        ↔ ∃ l ∈ Split "gpu,10/5/0/15\nnoise".toList '\n', l.head? = some ',')
      ∧ ((∀ l ∈ Split "gpu,10/5/0/15\nnoise".toList '\n', l.head? ≠ some ',') →
          ∀ k ∈ Map.keys [("gpu".toList,
            (⟨.fin 10, .fin 5, .fin 0, .fin 0, .fin 0, .fin 0, .fin 15⟩ : PartitionMetrics))],
            k ≠ [])
      ∧ (∀ k, k ∈ Map.keys [("gpu".toList,
            (⟨.fin 10, .fin 5, .fin 0, .fin 0, .fin 0, .fin 0, .fin 15⟩ : PartitionMetrics))]
          ↔ ∃ l ∈ Split "gpu,10/5/0/15\nnoise".toList '\n',
              Contains l ',' = true ∧ firstField l ',' = k))
    ∧ (∀ k, k ∈ Map.keys [((⟨"alice".toList, "teamA".toList⟩ : UserAccount),
            (⟨.fin (1 / 2)⟩ : FairShareMetrics))]
        ↔ ∃ l ∈ Split "alice|teamA|0.5\n  bob|teamB|1".toList '\n',
            HasPrefix l [' ', ' '] = false ∧ Contains l '|' = true
            ∧ k = ⟨Trim (firstField l '|') ' ', Trim (secondField l '|') ' '⟩) :=
  ⟨(keys_from_lines ParseFloat).1 "gpu,10/5/0/15\nnoise".toList [] [] _ (by decide!),
    (keys_from_lines ParseFloat).2.1 "alice|teamA|0.5\n  bob|teamB|1".toList _ (by decide!)⟩

/-- C16, as stated, fails: a state line that begins with a comma makes a
partition keyed by the empty string, and a fair-share line whose user or
account field is empty or blank makes a key with an empty user or account. -/
theorem keys_from_lines_counterexample :
    ParsePartitionsMetrics ParseFloat ",1/2/3/4".toList [] []
        = some [([], ⟨.fin 1, .fin 2, .fin 3, .fin 1, .fin 1, .fin 2, .fin 4⟩)]
    ∧ ParseFairShareMetrics ParseFloat "|teamA|0.5".toList
        = some [(⟨[], "teamA".toList⟩, ⟨.fin (1 / 2)⟩)]
    ∧ ParseFairShareMetrics ParseFloat "alice| |0.5".toList
        = some [(⟨"alice".toList, []⟩, ⟨.fin (1 / 2)⟩)] := by
  refine ⟨by decide!, by decide!, by decide!⟩

end SlurmExporter
